import Mathlib

/-!
Verification of the alternative-notebook text-document projection layer
(`AlternativeNotebookCellTextDocument` / `AlternativeNotebookTextDocument`)
against its natural-language specification.

The projection source is embedded faithfully below.  Support utilities that
the projection imports but whose implementation is not part of this
repository snapshot (`StringEdit`, `PositionOffsetTransformer`,
`CrLfOffsetTranslator`, `EOL`, the cell-marker generator,
`findLastIdxMonotonous`, `stringEditFromTextContentChange`) are modelled from
the specification; each such definition carries a doc comment saying so.
Texts are lists of characters; offsets and line/column positions are natural
numbers.
-/

set_option maxHeartbeats 1000000
set_option linter.unusedVariables false

namespace NotebookAlt

/-- Characters of a text buffer. -/
abbrev Text := List Char

/-- Modelled from the spec: the helpers module's canonical end-of-line
separator `EOL` is the single line-feed character. -/
def EOL : Text := ['\n']

/-- The EOL normalization used throughout the projection source: the
JavaScript replacement `text.replace(/\r\n|\n/g, EOL)` with `EOL = "\n"`,
scanning left to right.  A carriage return that is not immediately followed
by a line feed is left untouched. -/
def normalizeEOL : Text → Text
  | [] => []
  | '\r' :: '\n' :: rest => '\n' :: normalizeEOL rest
  | '\n' :: rest => '\n' :: normalizeEOL rest
  | c :: rest => c :: normalizeEOL rest

/-- Number of line-feed characters in a text. -/
def countNL : Text → Nat
  | [] => 0
  | '\n' :: rest => countNL rest + 1
  | _ :: rest => countNL rest

/-- Length of the first line of a text (characters before the first LF). -/
def firstLineLen : Text → Nat
  | [] => 0
  | '\n' :: _ => 0
  | _ :: rest => firstLineLen rest + 1

/-- Split a text at its first line feed, returning the first line and the
remainder after the LF; `none` when the text is a single line. -/
def splitFirstNL : Text → Option (Text × Text)
  | [] => none
  | '\n' :: rest => some ([], rest)
  | c :: rest => (splitFirstNL rest).map (fun p => (c :: p.1, p.2))

theorem splitFirstNL_length_lt {t : Text} {p : Text × Text}
    (h : splitFirstNL t = some p) : p.2.length < t.length := by
  induction t using splitFirstNL.induct generalizing p with
  | case1 => simp [splitFirstNL] at h
  | case2 rest =>
    have hp : p = ([], rest) := by
      have h' := h
      simp [splitFirstNL] at h'
      cases p
      simp_all
    subst hp
    simp
  | case3 c rest hc ih =>
    simp only [splitFirstNL, hc] at h
    match hs : splitFirstNL rest with
    | none => rw [hs] at h; simp at h
    | some q =>
      rw [hs] at h
      have hlen : q.2.length < rest.length := ih hs
      have hp : p = (c :: q.1, q.2) := by
        simp at h
        cases p
        simp_all
      subst hp
      exact Nat.lt_succ_of_lt hlen

/-- Length of the last line of a text (characters after the last LF). -/
def lastLineLen (t : Text) : Nat :=
  match hsplit : splitFirstNL t with
  | none => t.length
  | some p => lastLineLen p.2
termination_by t.length
decreasing_by exact splitFirstNL_length_lt hsplit

/-- Whether a text contains the two-character CR LF sequence. -/
def hasCRLF : Text → Bool
  | [] => false
  | '\r' :: '\n' :: _ => true
  | _ :: rest => hasCRLF rest

/-- Whether every carriage return in the text is immediately followed by a
line feed (no bare CR). -/
def noBareCR : Text → Bool
  | [] => true
  | '\r' :: '\n' :: rest => noBareCR rest
  | '\r' :: _ => false
  | _ :: rest => noBareCR rest

/-! ### CRLF offset translator

The implementation file of `CrLfOffsetTranslator` is not part of this
repository snapshot; only its unit tests are (`offsetTranslator.spec.tsx`).
The definitions below are modelled from the spec together with those tests:
the constructor precomputes the sorted list of raw-text offsets at which a
CR LF pair starts, and `translate` subtracts from a queried raw offset the
number of pairs that start before it (the tests pin down this direction:
`translate` maps raw offsets to offsets of the EOL-normalized text). -/

/-- Sorted list of offsets at which a CR LF pair starts, scanning left to
right without overlap (as the constructor's single pass produces). -/
def crlfPairStarts : Text → List Nat
  | [] => []
  | '\r' :: '\n' :: rest => 0 :: (crlfPairStarts rest).map (· + 2)
  | _ :: rest => (crlfPairStarts rest).map (· + 1)

/-- Modelled from the spec and the in-repo unit tests: the
`CrLfOffsetTranslator.translate` query.  For a raw-text offset `o` it
subtracts the number of CR LF pairs starting strictly before `o`; an offset
pointing between the CR and the LF of a pair therefore resolves to the
normalized offset of that line break. -/
def crlfTranslate (t : Text) (o : Nat) : Nat :=
  o - ((crlfPairStarts t).filter (fun s => decide (s < o))).length

/-- Number of CR LF pairs starting strictly before offset `o` (recursive
counterpart of filtering the precomputed pair-start list). -/
def crlfCnt : Text → Nat → Nat
  | _, 0 => 0
  | [], _ + 1 => 0
  | '\r' :: '\n' :: rest, o + 1 => 1 + crlfCnt rest (o - 1)
  | _ :: rest, o + 1 => crlfCnt rest o

/-! ### Position and offset transformer

`PositionOffsetTransformer` is imported by the projection but its
implementation file is not part of this snapshot.  It is modelled from the
spec: offsets and zero-based `(line, character)` positions over one
EOL-normalized text; `getOffset` clamps the line to the existing lines and
the column to the addressed line's length; `getPosition` treats an offset
equal to the text length as the position after the last character and clamps
larger offsets to it. -/

/-- Zero-based line/character position. -/
structure Pos where
  line : Nat
  character : Nat
deriving DecidableEq

/-- Position of a clamped offset, by scanning the text. -/
def getPositionGo : Text → Nat → Pos
  | _, 0 => ⟨0, 0⟩
  | [], _ + 1 => ⟨0, 0⟩
  | '\n' :: rest, o + 1 =>
    let p := getPositionGo rest o
    ⟨p.line + 1, p.character⟩
  | _ :: rest, o + 1 =>
    let p := getPositionGo rest o
    if p.line = 0 then ⟨0, p.character + 1⟩ else p

/-- Modelled from the spec: `PositionOffsetTransformer.getPosition`. -/
def getPosition (t : Text) (o : Nat) : Pos :=
  getPositionGo t (min o t.length)

/-- Offset of a line/character position; the line is clamped to the last
existing line and the column to the addressed line's length. -/
def getOffsetGo : Text → Nat → Nat → Nat
  | t, 0, c => min c (firstLineLen t)
  | t, l + 1, c =>
    match splitFirstNL t with
    | some p => p.1.length + 1 + getOffsetGo p.2 l c
    | none => min c t.length

/-- Modelled from the spec: `PositionOffsetTransformer.getOffset`. -/
def getOffset (t : Text) (p : Pos) : Nat :=
  getOffsetGo t p.line p.character

/-- Modelled from the spec: `PositionOffsetTransformer.getLineCount` (number
of line starts, i.e. LF count plus one). -/
def getLineCount (t : Text) : Nat :=
  countNL t + 1

/-! ### Host (raw) text document semantics

Host content-change events carry positions and offsets measured over the
cell's raw text, in which the editor treats CR LF, lone CR and lone LF as
line separators.  These definitions express that coordinate space; they are
used to state which events are well formed (the host only ever reports
range/offset pairs that agree on the raw document). -/

/-- Split a raw text at its first line break (CR LF, CR or LF), returning
the first line and the remainder; `none` when no break exists. -/
def rawSplitFirst : Text → Option (Text × Text)
  | [] => none
  | '\r' :: '\n' :: rest => some ([], rest)
  | '\r' :: rest => some ([], rest)
  | '\n' :: rest => some ([], rest)
  | c :: rest => (rawSplitFirst rest).map (fun p => (c :: p.1, p.2))

theorem rawSplitFirst_length_lt {t : Text} {p : Text × Text}
    (h : rawSplitFirst t = some p) : p.2.length < t.length := by
  induction t using rawSplitFirst.induct generalizing p with
  | case1 => simp [rawSplitFirst] at h
  | case2 rest =>
    have hp : p = ([], rest) := by
      have h' := h
      simp [rawSplitFirst] at h'
      cases p
      simp_all
    subst hp
    simp
    omega
  | case3 rest h1 =>
    have hp : p = ([], rest) := by
      have h' := h
      simp [rawSplitFirst, h1] at h'
      cases p
      simp_all
    subst hp
    simp
  | case4 rest =>
    have hp : p = ([], rest) := by
      have h' := h
      simp [rawSplitFirst] at h'
      cases p
      simp_all
    subst hp
    simp
  | case5 c rest h1 h2 h3 ih =>
    simp only [rawSplitFirst, h1, h2, h3] at h
    match hs : rawSplitFirst rest with
    | none => rw [hs] at h; simp at h
    | some q =>
      rw [hs] at h
      have hlen : q.2.length < rest.length := ih hs
      have hp : p = (c :: q.1, q.2) := by
        simp at h
        cases p
        simp_all
      subst hp
      exact Nat.lt_succ_of_lt hlen

/-- Lines of a raw text under the host's line-break conventions. -/
def rawLines (t : Text) : List Text :=
  match hsplit : rawSplitFirst t with
  | none => [t]
  | some p => p.1 :: rawLines p.2
termination_by t.length
decreasing_by exact rawSplitFirst_length_lt hsplit

/-- Length of the first raw line (characters before the first break). -/
def rawFirstLineLen : Text → Nat
  | [] => 0
  | '\r' :: _ => 0
  | '\n' :: _ => 0
  | _ :: rest => rawFirstLineLen rest + 1

/-- Offset of a raw-document position, walking whole raw lines (with their
separators) for each line and requiring the column to fit on the addressed
line; `none` for positions the raw document does not contain. -/
def rawOffsetGo : Text → Nat → Nat → Option Nat
  | t, 0, c => if c ≤ rawFirstLineLen t then some c else none
  | t, l + 1, c =>
    match rawSplitFirst t with
    | some p => (rawOffsetGo p.2 l c).map (fun o => o + (t.length - p.2.length))
    | none => none

/-- Offset of a valid host position in the raw text. -/
def rawOffsetOfPos (t : Text) (p : Pos) : Option Nat :=
  rawOffsetGo t p.line p.character

/-! ### The text-edit algebra

`StringEdit` and `StringReplacement` come from the editor-core utilities,
which are not part of this snapshot; they are modelled from the spec: an
ordered list of non-overlapping span replacements, with pure application and
with composition producing a single edit whose net effect equals applying
the two edits in sequence. -/

/-- Half-open offset range `[start, endExclusive)`. -/
structure OffsetRange where
  start : Nat
  endExclusive : Nat
deriving DecidableEq

/-- One contiguous replacement: a span of the old text and its new text. -/
structure StringReplacement where
  span : OffsetRange
  newText : Text
deriving DecidableEq

/-- Modelled from the spec: a `StringEdit` is an ordered list of
non-overlapping replacements, sorted by start offset. -/
structure StringEdit where
  replacements : List StringReplacement
deriving DecidableEq

/-- Apply sorted, non-overlapping replacements to the text; `pos` is the
absolute offset corresponding to the head of `t`.  As in the source's
`apply`, span boundaries beyond the text clamp to its end. -/
def applyReps : List StringReplacement → Nat → Text → Text
  | [], _, t => t
  | r :: rs, pos, t =>
    t.take (r.span.start - pos) ++ r.newText ++
      applyReps rs r.span.endExclusive (t.drop (r.span.endExclusive - pos))

/-- Modelled from the spec: `StringEdit.apply`, a pure function replacing
each span by its new text. -/
def StringEdit.apply (e : StringEdit) (t : Text) : Text :=
  applyReps e.replacements 0 t

/-- Modelled from the spec: `StringEdit.isEmpty`. -/
def StringEdit.isEmpty (e : StringEdit) : Bool :=
  e.replacements.isEmpty

/-- The empty edit (`StringEdit.compose([])` in the source). -/
def StringEdit.emptyEdit : StringEdit := ⟨[]⟩

/-- Modelled from the source's `StringEdit.replace(range, text)`: an edit of
one replacement. -/
def StringEdit.replace (r : OffsetRange) (txt : Text) : StringEdit :=
  ⟨[⟨r, txt⟩]⟩

/-- Replacement during composition, with integer bounds: the span is
expressed in the coordinates of the intermediate text (the text after the
first edit). -/
structure IRep where
  s : Int
  e : Int
  newText : Text
deriving DecidableEq

/-- View a second-edit replacement in intermediate coordinates. -/
def toIRep (r : StringReplacement) : IRep :=
  ⟨r.span.start, r.span.endExclusive, r.newText⟩

/-- Convert an intermediate-coordinate replacement back to original-text
coordinates, given the accumulated length delta of the first edit. -/
def ofIRep (delta : Int) (r : IRep) : StringReplacement :=
  ⟨⟨(r.s - delta).toNat, (r.e - delta).toNat⟩, r.newText⟩

/-- Merge sweep for edit composition: `xs` are the remaining replacements of
the first edit (original coordinates), `delta` the accumulated length
difference of the first edit before the current position, `ys` the remaining
replacements of the second edit (intermediate coordinates).  Overlapping
replacements are merged by absorbing the first-edit replacement into the
second-edit one. -/
def composeGo : Nat → List StringReplacement → Int → List IRep → List StringReplacement
  | 0, xs, _, _ => xs
  | _ + 1, xs, _, [] => xs
  | fuel + 1, [], delta, y :: ys => ofIRep delta y :: composeGo fuel [] delta ys
  | fuel + 1, x :: xs, delta, y :: ys =>
    let xMidS : Int := (x.span.start : Int) + delta
    let xMidE : Int := xMidS + x.newText.length
    if y.e ≤ xMidS then
      ofIRep delta y :: composeGo fuel (x :: xs) delta ys
    else if xMidE ≤ y.s then
      x :: composeGo fuel xs (delta + (x.newText.length : Int) -
        ((x.span.endExclusive : Int) - (x.span.start : Int))) (y :: ys)
    else
      let delta' : Int := delta + (x.newText.length : Int) -
        ((x.span.endExclusive : Int) - (x.span.start : Int))
      let pre : Text := if xMidS < y.s then x.newText.take (y.s - xMidS).toNat else []
      let post : Text := if y.e < xMidE then x.newText.drop (y.e - xMidS).toNat else []
      let oldS : Int := if y.s < xMidS then y.s - delta else (x.span.start : Int)
      composeGo fuel xs delta' (⟨oldS + delta', max y.e xMidE, pre ++ y.newText ++ post⟩ :: ys)

/-- Modelled from the spec: `StringEdit.compose`, a single edit with the net
effect of applying `e1` and then `e2`.  The sweep consumes one replacement
per step, so the fuel bound never runs out. -/
def StringEdit.compose (e1 e2 : StringEdit) : StringEdit :=
  ⟨composeGo (e1.replacements.length + e2.replacements.length + 1)
    e1.replacements 0 (e2.replacements.map toIRep)⟩

/-! ### Notebook cells and host change events -/

/-- Kind of a notebook cell. -/
inductive NotebookCellKind where
  | code
  | markup
deriving DecidableEq

/-- A host notebook cell as the projection consumes it: an identity (a
surrogate for the cell/document object reference), a kind and the raw text
of its text document.  `rawText` stands for `cell.document.getText()`. -/
structure NotebookCell where
  id : Nat
  kind : NotebookCellKind
  rawText : Text
deriving DecidableEq

/-- A zero-based range of positions (the host `Range` type). -/
structure VSRange where
  start : Pos
  endPos : Pos
deriving DecidableEq

/-- A host `TextDocumentContentChangeEvent`: a range in the cell document's
own coordinates, its offset form, and the replacement text. -/
structure TextDocumentContentChangeEvent where
  range : VSRange
  rangeOffset : Nat
  rangeLength : Nat
  text : Text
deriving DecidableEq

/-- A host `NotebookDocumentContentChange`: the replaced cell-index range
`[rangeStart, rangeEnd)` and the added cells. -/
structure NotebookDocumentContentChange where
  rangeStart : Nat
  rangeEnd : Nat
  addedCells : List NotebookCell
deriving DecidableEq

/-- Decimal digit character. -/
def digitChar : Nat → Char
  | 0 => '0' | 1 => '1' | 2 => '2' | 3 => '3' | 4 => '4'
  | 5 => '5' | 6 => '6' | 7 => '7' | 8 => '8' | _ => '9'

/-- Decimal digits of a natural number (most significant first). -/
def natDigitsAux : Nat → Nat → Text
  | 0, _ => []
  | _ + 1, 0 => []
  | fuel + 1, n + 1 => natDigitsAux fuel ((n + 1) / 10) ++ [digitChar ((n + 1) % 10)]

/-- Decimal representation of a natural number. -/
def natDigits (n : Nat) : Text :=
  if n = 0 then ['0'] else natDigitsAux (n + 1) n

/-- Modelled from the spec: `generateCellTextMarker(summarize(cell),
lineCommentStart)` — a single synthetic marker line identifying the cell,
starting with the line-comment token.  The exact wording of the marker is
irrelevant to the claims; what matters is that it is one line (it contains
no line break) and identifies the cell. -/
def generateCellTextMarker (lineCommentStart : Text) (cell : NotebookCell) : Text :=
  lineCommentStart ++ ('%' :: '%' :: ' ' :: 'c' :: 'e' :: 'l' :: 'l' :: ' ' :: natDigits cell.id)

/-- Modelled from the spec: `getLineCommentStart(notebook)`; the default
line-comment token. -/
def getLineCommentStart : Text := ['#']

/-- Modelled from the spec: `getBlockComment(notebook)`; the default block
comment open/close pair. -/
def getBlockComment : Text × Text := (['\"', '\"', '\"'], ['\"', '\"', '\"'])

/-! ### The per-cell projection (`AlternativeNotebookCellTextDocument`) -/

/-- Embedding of `AlternativeNotebookCellTextDocument`: the wrapped cell, the
(normalized) code body and the fixed prefix and suffix texts.  The position
transformer over `prefix ++ code ++ suffix` and the CRLF translator over
`cell.document.getText()` are recomputed from these fields on use. -/
structure AlternativeNotebookCellTextDocument where
  cell : NotebookCell
  blockComment : Text × Text
  lineCommentStart : Text
  code : Text
  prefixText : Text
  suffixText : Text
deriving DecidableEq

namespace AlternativeNotebookCellTextDocument

/-- Source `fromNotebookCell`: normalize the cell text, then wrap it with
the marker line (and, for markup cells, the block comment pair). -/
def fromNotebookCell (cell : NotebookCell) (blockComment : Text × Text)
    (lineCommentStart : Text) : AlternativeNotebookCellTextDocument :=
  let cellMarker := generateCellTextMarker lineCommentStart cell
  let code := normalizeEOL cell.rawText
  let pfx := if cell.kind = NotebookCellKind.markup then
      cellMarker ++ EOL ++ blockComment.1 ++ EOL
    else cellMarker ++ EOL
  let sfx := if cell.kind = NotebookCellKind.markup then EOL ++ blockComment.2 else []
  ⟨cell, blockComment, lineCommentStart, code, pfx, sfx⟩

/-- Source `altText` getter: the transformer's text
`prefix ++ code ++ suffix`. -/
def altText (d : AlternativeNotebookCellTextDocument) : Text :=
  d.prefixText ++ d.code ++ d.suffixText

/-- Source `lineCount` field (the transformer's line count). -/
def lineCount (d : AlternativeNotebookCellTextDocument) : Nat :=
  getLineCount d.altText

/-- Number of synthetic lines added before the cell body (source
`extraLinesAdded`). -/
def extraLines (d : AlternativeNotebookCellTextDocument) : Nat :=
  if d.cell.kind = NotebookCellKind.markup then 2 else 1

/-- Source `toAltRange`: shift a cell range down by the synthetic lines. -/
def toAltRange (d : AlternativeNotebookCellTextDocument) (r : VSRange) : VSRange :=
  ⟨⟨r.start.line + d.extraLines, r.start.character⟩,
   ⟨r.endPos.line + d.extraLines, r.endPos.character⟩⟩

/-- Source `toAltOffsetRange`: offsets of the shifted endpoints in the
cell's alt text. -/
def toAltOffsetRange (d : AlternativeNotebookCellTextDocument) (r : VSRange) : OffsetRange :=
  ⟨getOffset d.altText ⟨r.start.line + d.extraLines, r.start.character⟩,
   getOffset d.altText ⟨r.endPos.line + d.extraLines, r.endPos.character⟩⟩

/-- Source `fromAltOffsetRange`: positions of the offsets in the alt text,
shifted back up by the synthetic lines (clamping at zero), with the source's
last-line column clamp. -/
def fromAltOffsetRange (d : AlternativeNotebookCellTextDocument) (r : OffsetRange) : VSRange :=
  let startPosition := getPosition d.altText r.start
  let endPosition := getPosition d.altText r.endExclusive
  let startLine := startPosition.line - d.extraLines
  let endLine := endPosition.line - d.extraLines
  let endLineEndColumn :=
    if endLine = d.lineCount - d.extraLines then
      let lastPosition := getPosition d.altText d.altText.length
      min endPosition.character lastPosition.character
    else endPosition.character
  ⟨⟨startLine, startPosition.character⟩, ⟨endLine, endLineEndColumn⟩⟩

/-- Source `normalizeEdits`: translate each event's raw offsets through the
CRLF translator of the cell's raw text, shift its range past the synthetic
lines, and normalize the replacement text. -/
def normalizeEdits (d : AlternativeNotebookCellTextDocument)
    (edits : List TextDocumentContentChangeEvent) : List TextDocumentContentChangeEvent :=
  edits.map fun e =>
    let range := d.toAltRange e.range
    let rangeOffset := crlfTranslate d.cell.rawText e.rangeOffset
    let endOffset := crlfTranslate d.cell.rawText (e.rangeOffset + e.rangeLength)
    ⟨range, rangeOffset, endOffset - rangeOffset, normalizeEOL e.text⟩

/-- Source `withTextEdit`: apply the edit to the code body, keeping the
cell reference, prefix and suffix. -/
def withTextEdit (d : AlternativeNotebookCellTextDocument) (edit : StringEdit) :
    AlternativeNotebookCellTextDocument :=
  { d with code := edit.apply d.code }

end AlternativeNotebookCellTextDocument

/-! ### The whole-notebook aggregator (`AlternativeNotebookTextDocument`) -/

/-- One entry of the aggregator's per-cell index. -/
structure AltCellEntry where
  altCell : AlternativeNotebookCellTextDocument
  startLine : Nat
  startOffset : Nat
deriving DecidableEq

/-- Source `cellsBuilder` (specialised to an already-built list of cell
projections): accumulate each cell's start line and start offset; one `EOL`
is added between consecutive cells. -/
def cellsBuilderGo : Nat → Nat → List AlternativeNotebookCellTextDocument → List AltCellEntry
  | _, _, [] => []
  | lineCount, offset, c :: cs =>
    ⟨c, lineCount, offset⟩ ::
      cellsBuilderGo (lineCount + c.lineCount) (offset + c.altText.length + EOL.length) cs

/-- Source `cellsBuilder`, starting from line 0 and offset 0. -/
def cellsBuilder (cs : List AlternativeNotebookCellTextDocument) : List AltCellEntry :=
  cellsBuilderGo 0 0 cs

/-- Placeholder entry standing for the JavaScript `undefined` produced by an
out-of-bounds array access (the source would throw on any use of it). -/
def dummyEntry : AltCellEntry :=
  ⟨⟨⟨0, NotebookCellKind.code, []⟩, ([], []), [], [], [], []⟩, 0, 0⟩

/-- Embedding of `AlternativeNotebookTextDocument`. -/
structure AlternativeNotebookTextDocument where
  excludeMarkdownCells : Bool
  blockComment : Text × Text
  lineCommentStart : Text
  altCells : List AltCellEntry
deriving DecidableEq

namespace AlternativeNotebookTextDocument

/-- Source private `create`: filter markup cells if requested, project each
cell, and build the index. -/
def create (cells : List NotebookCell) (excludeMarkdownCells : Bool) :
    AlternativeNotebookTextDocument :=
  let blockComment := getBlockComment
  let lineCommentStart := getLineCommentStart
  let notebookCells := cells.filter
    (fun cell => !excludeMarkdownCells || decide (cell.kind ≠ NotebookCellKind.markup))
  ⟨excludeMarkdownCells, blockComment, lineCommentStart,
    cellsBuilder (notebookCells.map
      (fun cell => AlternativeNotebookCellTextDocument.fromNotebookCell cell blockComment lineCommentStart))⟩

/-- Source `withoutMDCells`, the only public factory. -/
def withoutMDCells (cells : List NotebookCell) : AlternativeNotebookTextDocument :=
  create cells true

/-- Source `altText` getter: the cells' alt texts joined by `EOL`. -/
def joinEOL : List Text → Text
  | [] => []
  | [t] => t
  | t :: ts => t ++ '\n' :: joinEOL ts

/-- Flattened text of the projection. -/
def altText (d : AlternativeNotebookTextDocument) : Text :=
  joinEOL (d.altCells.map (fun c => c.altCell.altText))

/-- Source `getAltText()` without a range argument. -/
def getAltText (d : AlternativeNotebookTextDocument) : Text :=
  d.altText

/-- Source `getAltText(range)`: the substring of the flattened text covered
by the offset range (`OffsetRange.substring`). -/
def getAltTextRange (d : AlternativeNotebookTextDocument) (r : OffsetRange) : Text :=
  (d.altText.drop r.start).take (r.endExclusive - r.start)

/-- Source `getCell`: the cell whose text document is the given one (the
constructor's map from documents to cells, here keyed by the surrogate
document id). -/
def getCell (d : AlternativeNotebookTextDocument) (docId : Nat) : Option NotebookCell :=
  (d.altCells.find? (fun c => c.altCell.cell.id = docId)).map (fun c => c.altCell.cell)

/-- Modelled from the spec: `findLastIdxMonotonous(arr, pred)` — the index
of the last element satisfying the (monotone) predicate, `none` when no
element does (the source returns `-1`). -/
def findLastIdx? (p : AltCellEntry → Bool) : List AltCellEntry → Option Nat
  | [] => none
  | x :: xs =>
    match findLastIdx? p xs with
    | some i => some (i + 1)
    | none => if p x then some 0 else none

/-- Source `fromAltOffsetRange` (notebook level): locate the last entry
starting at or before the range start and walk forward over the overlapped
cells; `none` when the monotonic search fails (the source returns
`undefined`). -/
def fromAltOffsetRange (d : AlternativeNotebookTextDocument) (offsetRange : OffsetRange) :
    Option (List (NotebookCell × VSRange)) :=
  match findLastIdx? (fun c => c.startOffset ≤ offsetRange.start) d.altCells with
  | none => none
  | some firstIdx =>
    match d.altCells.drop firstIdx with
    | [] => some []
    | e :: rest =>
      some ((e.altCell.cell, e.altCell.fromAltOffsetRange
              ⟨offsetRange.start - e.startOffset, offsetRange.endExclusive - e.startOffset⟩) ::
        rest.filterMap (fun e2 =>
          if e2.startOffset + e2.altCell.altText.length < offsetRange.endExclusive then
            some (e2.altCell.cell, e2.altCell.fromAltOffsetRange ⟨0, e2.altCell.altText.length⟩)
          else if e2.startOffset < offsetRange.endExclusive then
            some (e2.altCell.cell, e2.altCell.fromAltOffsetRange
                    ⟨0, offsetRange.endExclusive - e2.startOffset⟩)
          else none))

/-- Source `toAltOffsetRange` (notebook level) loop: find the cell while
accumulating the flattened offset, then translate each range. -/
def toAltOffsetRangeGo (cell : NotebookCell) (ranges : List VSRange) :
    List AltCellEntry → Nat → List OffsetRange
  | [], _ => []
  | e :: rest, offset =>
    if e.altCell.cell = cell then
      ranges.map (fun range =>
        let offsetRange := e.altCell.toAltOffsetRange range
        ⟨offset + offsetRange.start, offset + offsetRange.endExclusive⟩)
    else
      toAltOffsetRangeGo cell ranges rest (offset + e.altCell.altText.length + EOL.length)

/-- Source `toAltOffsetRange` (notebook level). -/
def toAltOffsetRange (d : AlternativeNotebookTextDocument) (cell : NotebookCell)
    (ranges : List VSRange) : List OffsetRange :=
  toAltOffsetRangeGo cell ranges d.altCells 0

/-- Source `toAltRange` (notebook level) loop: find the cell and shift each
translated range down by the entry's start line. -/
def toAltRangeGo (cell : NotebookCell) (ranges : List VSRange) :
    List AltCellEntry → List VSRange
  | [] => []
  | e :: rest =>
    if e.altCell.cell = cell then
      ranges.map (fun range =>
        let altCellRange := e.altCell.toAltRange range
        ⟨⟨altCellRange.start.line + e.startLine, altCellRange.start.character⟩,
         ⟨altCellRange.endPos.line + e.startLine, altCellRange.endPos.character⟩⟩)
    else toAltRangeGo cell ranges rest

/-- Source `toAltRange` (notebook level). -/
def toAltRange (d : AlternativeNotebookTextDocument) (cell : NotebookCell)
    (ranges : List VSRange) : List VSRange :=
  toAltRangeGo cell ranges d.altCells

/-- Source `withCellChanges` accepts either a ready `StringEdit` or the raw
host events. -/
inductive CellEditArg where
  | edit (e : StringEdit)
  | events (es : List TextDocumentContentChangeEvent)
deriving DecidableEq

/-- Modelled from the spec: `stringEditFromTextContentChange` — the host
reports batched content changes from the end of the document to the
beginning, all against the pre-change document; reversing them yields the
ascending replacement list of a single `StringEdit`. -/
def stringEditFromTextContentChange (events : List TextDocumentContentChangeEvent) : StringEdit :=
  ⟨(events.map (fun e =>
      (⟨⟨e.rangeOffset, e.rangeOffset + e.rangeLength⟩, e.text⟩ : StringReplacement))).reverse⟩

/-- Source `withCellChanges`: no-op for an empty edit or an unknown cell
document; otherwise apply the (normalized) cell edit to the owning cell's
projection and rebuild the index. -/
def withCellChanges (d : AlternativeNotebookTextDocument) (docId : Nat)
    (edit : CellEditArg) : AlternativeNotebookTextDocument :=
  if (match edit with
      | CellEditArg.edit e => e.isEmpty
      | CellEditArg.events es => es.isEmpty) then d
  else
    match d.altCells.find? (fun c => c.altCell.cell.id = docId) with
    | none => d
    | some cell =>
      let cellEdit := match edit with
        | CellEditArg.edit e => e
        | CellEditArg.events es =>
          stringEditFromTextContentChange (cell.altCell.normalizeEdits es)
      { d with altCells :=
          cellsBuilder (d.altCells.map (fun c =>
            if c.altCell.cell.id = docId then c.altCell.withTextEdit cellEdit else c.altCell)) }

/-- Source `toAltCellTextDocumentContentChangeEvents`: translate each host
event of the cell document into flattened coordinates, dropping events whose
cell or ranges cannot be resolved (`coalesce`). -/
def toAltCellTextDocumentContentChangeEvents (d : AlternativeNotebookTextDocument)
    (docId : Nat) (events : List TextDocumentContentChangeEvent) :
    List TextDocumentContentChangeEvent :=
  events.filterMap (fun e =>
    match d.getCell docId with
    | none => none
    | some cell =>
      match d.toAltRange cell [e.range], d.toAltOffsetRange cell [e.range] with
      | range :: _, rangeOffset :: _ =>
        some ⟨range, rangeOffset.start, rangeOffset.endExclusive - rangeOffset.start,
              normalizeEOL e.text⟩
      | _, _ => none)

/-- Source `editFromNotebookCellTextDocumentContentChangeEvents`. -/
def editFromNotebookCellTextDocumentContentChangeEvents
    (d : AlternativeNotebookTextDocument) (docId : Nat)
    (events : List TextDocumentContentChangeEvent) : StringEdit :=
  stringEditFromTextContentChange (d.toAltCellTextDocumentContentChangeEvents docId events)

/-- Source `withCellChangesAndEdit`: for a non-empty event list, the updated
projection together with the flattened-coordinate edit. -/
def withCellChangesAndEdit (d : AlternativeNotebookTextDocument) (docId : Nat)
    (events : List TextDocumentContentChangeEvent) :
    AlternativeNotebookTextDocument × Option StringEdit :=
  if events.length = 0 then (d, none)
  else
    (d.withCellChanges docId (CellEditArg.events events),
     some (d.editFromNotebookCellTextDocumentContentChangeEvents docId events))

/-- Body of the loop of `withNotebookChangesAndEdit`, for one structural
change event: splice the entries and extend the composed edit. -/
def applyNotebookChange (blockComment : Text × Text) (lineCommentStart : Text)
    (state : List AltCellEntry × StringEdit) (event : NotebookDocumentContentChange) :
    List AltCellEntry × StringEdit :=
  let altCells := state.1
  let newCells := event.addedCells.map (fun cell =>
    (⟨AlternativeNotebookCellTextDocument.fromNotebookCell cell blockComment lineCommentStart,
      0, 0⟩ : AltCellEntry))
  let removedCells := (altCells.drop event.rangeStart).take (event.rangeEnd - event.rangeStart)
  let startOffset :=
    if event.rangeStart = 0 then 0
    else
      let prev := altCells.getD (event.rangeStart - 1) dummyEntry
      prev.startOffset + prev.altCell.altText.length + EOL.length
  let offsetLength := (joinEOL (removedCells.map (fun c => c.altCell.altText))).length
  let newCellsContent := joinEOL (newCells.map (fun c => c.altCell.altText))
  let newCellsContent :=
    if startOffset ≠ 0 ∧ ¬event.rangeEnd < altCells.length then '\n' :: newCellsContent
    else newCellsContent
  let (newCellsContent, offsetLength) :=
    if event.rangeEnd < altCells.length then
      ((if newCellsContent ≠ [] then newCellsContent ++ ['\n'] else newCellsContent),
       (if offsetLength ≠ 0 then offsetLength + EOL.length else offsetLength))
    else (newCellsContent, offsetLength)
  let edit := state.2.compose
    (StringEdit.replace ⟨startOffset, startOffset + offsetLength⟩ newCellsContent)
  let spliced := altCells.take event.rangeStart ++ newCells ++ altCells.drop event.rangeEnd
  (cellsBuilder (spliced.map (fun c => c.altCell)), edit)

/-- Source `withNotebookChangesAndEdit`: fold the structural changes over
the entry list, composing one splice edit per change. -/
def withNotebookChangesAndEdit (d : AlternativeNotebookTextDocument)
    (events : List NotebookDocumentContentChange) :
    AlternativeNotebookTextDocument × Option StringEdit :=
  if events.length = 0 then (d, none)
  else
    let res := events.foldl (applyNotebookChange d.blockComment d.lineCommentStart)
      (d.altCells, StringEdit.emptyEdit)
    ({ d with altCells := res.1 }, some res.2)

end AlternativeNotebookTextDocument

/-! ### The per-cell index invariant -/

open AlternativeNotebookTextDocument

/-- Whether an entry list carries the accumulated index: starting from the
given line and offset, each entry records them and advances by its alt
text's line count, respectively its length plus the separator length. -/
def indexChainFrom : Nat → Nat → List AltCellEntry → Bool
  | _, _, [] => true
  | line, off, e :: rest =>
    e.startLine = line && e.startOffset = off &&
      indexChainFrom (line + e.altCell.lineCount) (off + e.altCell.altText.length + EOL.length) rest

/-- The invariant claimed of every projection: the first entry starts at
line 0 and offset 0 and the chain accumulates from there. -/
def indexOK (d : AlternativeNotebookTextDocument) : Bool :=
  indexChainFrom 0 0 d.altCells

theorem cellsBuilderGo_chain (cs : List AlternativeNotebookCellTextDocument) :
    ∀ line off, indexChainFrom line off (cellsBuilderGo line off cs) = true := by
  induction cs with
  | nil => intro line off; simp [cellsBuilderGo, indexChainFrom]
  | cons c cs ih =>
    intro line off
    simp [cellsBuilderGo, indexChainFrom]
    exact ih _ _

theorem cellsBuilder_chain (cs : List AlternativeNotebookCellTextDocument) :
    indexChainFrom 0 0 (cellsBuilder cs) = true :=
  cellsBuilderGo_chain cs 0 0

theorem foldl_applyNotebookChange_chain (bc : Text × Text) (lcs : Text)
    (events : List NotebookDocumentContentChange) :
    ∀ state, events ≠ [] →
      indexChainFrom 0 0 (events.foldl (applyNotebookChange bc lcs) state).1 = true := by
  induction events with
  | nil => intro state h; exact absurd rfl h
  | cons e es ih =>
    intro state _
    by_cases hs : es = []
    · subst hs
      simp only [List.foldl]
      exact cellsBuilder_chain _
    · simp only [List.foldl]
      exact ih _ hs

end NotebookAlt

open NotebookAlt NotebookAlt.AlternativeNotebookTextDocument

/-- Claim C7: every projection produced by building from a notebook, by
`withCellChanges`, or by `withNotebookChangesAndEdit` satisfies the per-cell
index invariant: the first entry starts at offset 0 and line 0 and each
subsequent entry advances by the previous entry's alt-text length plus the
separator length, respectively by its line count. -/
theorem claim_c7_index_invariant :
    (∀ cells : List NotebookCell, indexOK (withoutMDCells cells) = true) ∧
    (∀ (d : AlternativeNotebookTextDocument) (docId : Nat) (edit : CellEditArg),
      indexOK d = true → indexOK (d.withCellChanges docId edit) = true) ∧
    (∀ (d : AlternativeNotebookTextDocument) (events : List NotebookDocumentContentChange),
      indexOK d = true → indexOK (d.withNotebookChangesAndEdit events).1 = true) := by
  refine ⟨?_, ?_, ?_⟩
  · intro cells
    exact cellsBuilder_chain _
  · intro d docId edit h
    unfold withCellChanges
    split
    · exact h
    · match hfind : d.altCells.find? (fun c => c.altCell.cell.id = docId) with
      | none => simp [hfind]; exact h
      | some cell => simp [hfind]; exact cellsBuilder_chain _
  · intro d events h
    unfold withNotebookChangesAndEdit
    split
    · exact h
    · next hne =>
      have : events ≠ [] := by
        intro hnil
        exact hne (by simp [hnil])
      exact foldl_applyNotebookChange_chain _ _ _ _ this

/-- Witness for C7 at a concrete projection and inputs. -/
theorem claim_c7_index_invariant_witness :
    indexOK (withoutMDCells [⟨0, NotebookCellKind.code, "ab".data⟩]) = true ∧
    indexOK ((withoutMDCells [⟨0, NotebookCellKind.code, "ab".data⟩]).withCellChanges 0
      (CellEditArg.events [⟨⟨⟨0, 0⟩, ⟨0, 1⟩⟩, 0, 1, "x".data⟩])) = true ∧
    indexOK ((withoutMDCells [⟨0, NotebookCellKind.code, "ab".data⟩]).withNotebookChangesAndEdit
      [⟨0, 1, []⟩]).1 = true :=
  ⟨claim_c7_index_invariant.1 _,
   claim_c7_index_invariant.2.1 _ 0 _ (by decide),
   claim_c7_index_invariant.2.2 _ _ (by decide)⟩

/-- Claim C10: an empty event list gives back the identical projection with
no edit (`undefined`, modelled as `none`), and `withCellChanges` with an
empty `StringEdit` or an empty event list gives back the identical
projection. -/
theorem claim_c10_empty_inputs_are_noops :
    ∀ (d : AlternativeNotebookTextDocument) (docId : Nat),
      d.withCellChangesAndEdit docId [] = (d, none) ∧
      d.withNotebookChangesAndEdit [] = (d, none) ∧
      d.withCellChanges docId (CellEditArg.edit StringEdit.emptyEdit) = d ∧
      d.withCellChanges docId (CellEditArg.events []) = d := by
  intro d docId
  refine ⟨rfl, rfl, ?_, ?_⟩ <;> simp [withCellChanges, StringEdit.isEmpty, StringEdit.emptyEdit]

/-- Claim C8: a non-empty batch of content-change events for a text document
that belongs to no cell of the projection is a no-op: the projection comes
back unchanged together with an empty edit, and applying the empty edit
leaves any text unchanged. -/
theorem claim_c8_unknown_cell_noop :
    ∀ (d : AlternativeNotebookTextDocument) (docId : Nat)
      (events : List TextDocumentContentChangeEvent) (t : Text),
      events ≠ [] → d.getCell docId = none →
      d.withCellChangesAndEdit docId events = (d, some StringEdit.emptyEdit) ∧
      StringEdit.apply StringEdit.emptyEdit t = t := by
  intro d docId events t hne hcell
  have hfind : d.altCells.find? (fun c => c.altCell.cell.id = docId) = none := by
    unfold getCell at hcell
    exact Option.map_eq_none'.mp hcell
  constructor
  · unfold withCellChangesAndEdit
    rw [if_neg (by simpa using hne)]
    have h1 : d.withCellChanges docId (CellEditArg.events events) = d := by
      unfold withCellChanges
      split
      · rfl
      · rw [hfind]
    have h2 : d.editFromNotebookCellTextDocumentContentChangeEvents docId events =
        StringEdit.emptyEdit := by
      unfold editFromNotebookCellTextDocumentContentChangeEvents
      have : d.toAltCellTextDocumentContentChangeEvents docId events = [] := by
        unfold toAltCellTextDocumentContentChangeEvents
        apply List.filterMap_eq_nil_iff.mpr
        intro e he
        rw [hcell]
      rw [this]
      rfl
    rw [h1, h2]
  · rfl

/-- Witness for C8: a one-cell projection queried with a foreign document
id. -/
theorem claim_c8_unknown_cell_noop_witness :
    (withoutMDCells [⟨0, NotebookCellKind.code, "ab".data⟩]).withCellChangesAndEdit 7
        [⟨⟨⟨0, 0⟩, ⟨0, 1⟩⟩, 0, 1, "x".data⟩] =
      (withoutMDCells [⟨0, NotebookCellKind.code, "ab".data⟩], some StringEdit.emptyEdit) ∧
    StringEdit.apply StringEdit.emptyEdit "q".data = "q".data :=
  claim_c8_unknown_cell_noop _ 7 _ _ (by decide) (by decide)

/-- Claim C2 (failing input): removing the last cell of a two-cell notebook.
The structural-change edit replaces only the removed cell's span by a lone
separator instead of deleting the span together with the preceding
separator, so applying it to the old flattened text leaves a trailing
`"\n\n"` while the new projection's flattened text is just the first cell.
The theorem evaluates the code at this input: the two sides differ. -/
theorem claim_c2_structural_edit_bug :
    (((withoutMDCells [⟨0, NotebookCellKind.code, "a".data⟩,
        ⟨1, NotebookCellKind.code, "b".data⟩]).withNotebookChangesAndEdit
        [⟨1, 2, []⟩]).2.getD StringEdit.emptyEdit).apply
      (withoutMDCells [⟨0, NotebookCellKind.code, "a".data⟩,
        ⟨1, NotebookCellKind.code, "b".data⟩]).getAltText =
      (withoutMDCells [⟨0, NotebookCellKind.code, "a".data⟩,
        ⟨1, NotebookCellKind.code, "b".data⟩]).getAltText.take 12 ++ "\n\n".data ∧
    ((withoutMDCells [⟨0, NotebookCellKind.code, "a".data⟩,
        ⟨1, NotebookCellKind.code, "b".data⟩]).withNotebookChangesAndEdit
        [⟨1, 2, []⟩]).1.getAltText =
      (withoutMDCells [⟨0, NotebookCellKind.code, "a".data⟩,
        ⟨1, NotebookCellKind.code, "b".data⟩]).getAltText.take 12 ∧
    (((withoutMDCells [⟨0, NotebookCellKind.code, "a".data⟩,
        ⟨1, NotebookCellKind.code, "b".data⟩]).withNotebookChangesAndEdit
        [⟨1, 2, []⟩]).2.getD StringEdit.emptyEdit).apply
      (withoutMDCells [⟨0, NotebookCellKind.code, "a".data⟩,
        ⟨1, NotebookCellKind.code, "b".data⟩]).getAltText ≠
    ((withoutMDCells [⟨0, NotebookCellKind.code, "a".data⟩,
        ⟨1, NotebookCellKind.code, "b".data⟩]).withNotebookChangesAndEdit
        [⟨1, 2, []⟩]).1.getAltText := by
  refine ⟨by decide, by decide, by decide⟩

/-- Claim C9 (counterexample): on a projection with no cells,
`fromAltOffsetRange` returns `undefined` (modelled `none`), not the empty
list the claim requires. -/
theorem claim_c9_counterexample :
    (withoutMDCells []).fromAltOffsetRange ⟨0, 1⟩ = none ∧
    (none : Option (List (NotebookCell × VSRange))) ≠ some [] := by
  exact ⟨by decide, by decide⟩

theorem toAltOffsetRangeGo_absent (cell : NotebookCell) (ranges : List VSRange) :
    ∀ (l : List AltCellEntry) (off : Nat), (∀ e ∈ l, e.altCell.cell ≠ cell) →
      toAltOffsetRangeGo cell ranges l off = [] := by
  intro l
  induction l with
  | nil => intro off _; rfl
  | cons e rest ih =>
    intro off h
    have hne : e.altCell.cell ≠ cell := h e (by simp)
    simp only [toAltOffsetRangeGo, if_neg hne]
    exact ih _ (fun x hx => h x (by simp [hx]))

theorem toAltRangeGo_absent (cell : NotebookCell) (ranges : List VSRange) :
    ∀ (l : List AltCellEntry), (∀ e ∈ l, e.altCell.cell ≠ cell) →
      toAltRangeGo cell ranges l = [] := by
  intro l
  induction l with
  | nil => intro _; rfl
  | cons e rest ih =>
    intro h
    have hne : e.altCell.cell ≠ cell := h e (by simp)
    simp only [toAltRangeGo, if_neg hne]
    exact ih (fun x hx => h x (by simp [hx]))

/-- Claim C9 (amended): a translation query never yields a truncated result:
`toAltOffsetRange` and `toAltRange` for a cell not present in the projection
return the empty list, and `fromAltOffsetRange` on a projection with no
cells returns `undefined` (modelled `none`) rather than a partial list. -/
theorem claim_c9_amended_no_partial_results :
    (∀ (d : AlternativeNotebookTextDocument) (cell : NotebookCell) (ranges : List VSRange),
      (∀ e ∈ d.altCells, e.altCell.cell ≠ cell) →
      d.toAltOffsetRange cell ranges = [] ∧ d.toAltRange cell ranges = []) ∧
    (∀ (d : AlternativeNotebookTextDocument) (r : OffsetRange),
      d.altCells = [] → d.fromAltOffsetRange r = none) := by
  constructor
  · intro d cell ranges h
    exact ⟨toAltOffsetRangeGo_absent cell ranges d.altCells 0 h,
           toAltRangeGo_absent cell ranges d.altCells h⟩
  · intro d r h
    unfold fromAltOffsetRange
    rw [h]
    rfl

theorem cellsBuilderGo_map_altCell (cs : List AlternativeNotebookCellTextDocument) :
    ∀ line off, (cellsBuilderGo line off cs).map (fun e => e.altCell) = cs := by
  induction cs with
  | nil => intro line off; rfl
  | cons c cs ih =>
    intro line off
    simp [cellsBuilderGo]
    exact ih _ _

theorem cellsBuilder_map_altCell (cs : List AlternativeNotebookCellTextDocument) :
    (cellsBuilder cs).map (fun e => e.altCell) = cs :=
  cellsBuilderGo_map_altCell cs 0 0

theorem digitChar_no_ctrl : ∀ k, digitChar k ≠ '\r' ∧ digitChar k ≠ '\n' := by
  intro k
  match k with
  | 0 | 1 | 2 | 3 | 4 | 5 | 6 | 7 | 8 => exact ⟨by decide, by decide⟩
  | n + 9 =>
    rw [show digitChar (n + 9) = '9' from rfl]
    exact ⟨by decide, by decide⟩

theorem natDigitsAux_no_ctrl (fuel : Nat) :
    ∀ n, '\r' ∉ natDigitsAux fuel n ∧ '\n' ∉ natDigitsAux fuel n := by
  induction fuel with
  | zero => intro n; simp [natDigitsAux]
  | succ fuel ih =>
    intro n
    match n with
    | 0 => simp [natDigitsAux]
    | m + 1 =>
      simp only [natDigitsAux, List.mem_append, List.mem_singleton]
      have hd := digitChar_no_ctrl ((m + 1) % 10)
      have hrec := ih ((m + 1) / 10)
      constructor
      · intro h
        rcases h with h | h
        · exact hrec.1 h
        · exact hd.1 h.symm
      · intro h
        rcases h with h | h
        · exact hrec.2 h
        · exact hd.2 h.symm

theorem natDigits_no_ctrl (n : Nat) : '\r' ∉ natDigits n ∧ '\n' ∉ natDigits n := by
  unfold natDigits
  split
  · simp
  · exact natDigitsAux_no_ctrl _ _

theorem marker_no_ctrl (cell : NotebookCell) :
    '\r' ∉ generateCellTextMarker getLineCommentStart cell ∧
    '\n' ∉ generateCellTextMarker getLineCommentStart cell := by
  have h := natDigits_no_ctrl cell.id
  constructor
  · intro hmem
    simp only [generateCellTextMarker, getLineCommentStart, List.cons_append, List.nil_append,
      List.mem_cons] at hmem
    rcases hmem with h1 | h1 | h1 | h1 | h1 | h1 | h1 | h1 | h1 | h1
    iterate 9 exact absurd h1 (by decide)
    exact h.1 h1
  · intro hmem
    simp only [generateCellTextMarker, getLineCommentStart, List.cons_append, List.nil_append,
      List.mem_cons] at hmem
    rcases hmem with h1 | h1 | h1 | h1 | h1 | h1 | h1 | h1 | h1 | h1
    iterate 9 exact absurd h1 (by decide)
    exact h.2 h1

theorem noBareCR_cons_ne {c : Char} (rest : Text) (hc : c ≠ '\r') :
    noBareCR (c :: rest) = noBareCR rest := by
  cases rest with
  | nil => simp [noBareCR, hc]
  | cons d ds => simp [noBareCR, hc]

theorem normalizeEOL_cons_ne {c : Char} (rest : Text) (hc : c ≠ '\r') (hn : c ≠ '\n') :
    normalizeEOL (c :: rest) = c :: normalizeEOL rest := by
  cases rest with
  | nil => simp [normalizeEOL, hc, hn]
  | cons d ds => simp [normalizeEOL, hc, hn]

theorem normalizeEOL_no_cr {t : Text} (h : noBareCR t = true) : '\r' ∉ normalizeEOL t := by
  induction t using noBareCR.induct with
  | case1 => simp [normalizeEOL]
  | case2 rest ih =>
    rw [show noBareCR ('\r' :: '\n' :: rest) = noBareCR rest from rfl] at h
    rw [show normalizeEOL ('\r' :: '\n' :: rest) = '\n' :: normalizeEOL rest from rfl]
    intro hmem
    rcases List.mem_cons.mp hmem with h1 | h1
    · exact absurd h1 (by decide)
    · exact ih h h1
  | case3 tail h1 =>
    exfalso
    have hfalse : noBareCR ('\r' :: tail) = false := by
      cases tail with
      | nil => rfl
      | cons d ds =>
        by_cases hd : d = '\n'
        · exact absurd (by rw [hd]) (fun hh => h1 ds hh)
        · simp [noBareCR, hd]
    rw [hfalse] at h
    exact Bool.false_ne_true h
  | case4 c rest h1 h2 ih =>
    have hc : c ≠ '\r' := fun hh => h2 hh
    have hrest : noBareCR rest = true := by
      rw [noBareCR_cons_ne rest hc] at h
      exact h
    by_cases hn : c = '\n'
    · subst hn
      rw [show normalizeEOL ('\n' :: rest) = '\n' :: normalizeEOL rest from rfl]
      intro hmem
      rcases List.mem_cons.mp hmem with h1 | h1
      · exact absurd h1 (by decide)
      · exact ih hrest h1
    · rw [normalizeEOL_cons_ne rest hc hn]
      intro hmem
      rcases List.mem_cons.mp hmem with h1 | h1
      · exact hc h1.symm
      · exact ih hrest h1

theorem joinEOL_no_cr {ts : List Text} (h : ∀ t ∈ ts, '\r' ∉ t) : '\r' ∉ joinEOL ts := by
  induction ts with
  | nil => simp [joinEOL]
  | cons t ts ih =>
    cases ts with
    | nil => simpa [joinEOL] using h t (by simp)
    | cons u us =>
      simp only [joinEOL, List.mem_append, List.mem_cons]
      intro hmem
      rcases hmem with hmem | hmem | hmem
      · exact h t (by simp) hmem
      · exact absurd hmem.symm (by decide)
      · exact ih (fun x hx => h x (by simp [List.mem_cons] at hx ⊢; tauto)) hmem

theorem hasCRLF_cons_ne {c : Char} (rest : Text) (hc : c ≠ '\r') :
    hasCRLF (c :: rest) = hasCRLF rest := by
  cases rest with
  | nil => simp [hasCRLF, hc]
  | cons d ds => simp [hasCRLF, hc]

theorem hasCRLF_eq_false_of_no_cr {t : Text} (h : '\r' ∉ t) : hasCRLF t = false := by
  induction t with
  | nil => rfl
  | cons c rest ih =>
    have hc : c ≠ '\r' := fun hh => h (by simp [hh])
    rw [hasCRLF_cons_ne rest hc]
    exact ih (fun hh => h (by simp [hh]))

/-- Claim C5 (counterexample): with a code cell whose raw text mixes a bare
CR with a CRLF pair (`"a\r\r\nb"`), the normalization leaves a CR that ends
up directly before a canonical LF, so `getAltText()` contains the CRLF
sequence. -/
theorem claim_c5_counterexample :
    hasCRLF (withoutMDCells [⟨0, NotebookCellKind.code, "a\r\r\nb".data⟩]).getAltText = true := by
  decide

/-- Claim C5 (amended): for every notebook whose cells' raw texts contain no
bare CR (every CR is part of a CRLF pair — LF-only, CRLF, or mixed LF/CRLF
conventions), the flattened `getAltText()` never contains the CRLF sequence;
all line breaks are the canonical LF. -/
theorem claim_c5_amended_no_crlf :
    ∀ cells : List NotebookCell, (∀ c ∈ cells, noBareCR c.rawText = true) →
      hasCRLF (withoutMDCells cells).getAltText = false := by
  intro cells h
  apply hasCRLF_eq_false_of_no_cr
  unfold getAltText altText withoutMDCells create
  simp only
  rw [show (fun (c : AltCellEntry) => c.altCell.altText) =
    (fun a : AlternativeNotebookCellTextDocument => a.altText) ∘ (fun c => c.altCell) from rfl]
  rw [← List.map_map, cellsBuilder_map_altCell]
  apply joinEOL_no_cr
  intro t ht
  simp only [List.map_map, List.mem_map, Function.comp] at ht
  obtain ⟨cell, hcell, rfl⟩ := ht
  have hcell' : cell ∈ cells := List.mem_filter.mp hcell |>.1
  have hnb : noBareCR cell.rawText = true := h cell hcell'
  have hkind : cell.kind ≠ NotebookCellKind.markup := by
    have := List.mem_filter.mp hcell |>.2
    simpa using this
  unfold AlternativeNotebookCellTextDocument.fromNotebookCell
    AlternativeNotebookCellTextDocument.altText
  simp only [if_neg hkind]
  simp only [List.mem_append]
  intro hmem
  rcases hmem with ((hmem | hmem) | hmem) | hmem
  · exact (marker_no_ctrl cell).1 hmem
  · simp [EOL] at hmem
  · exact normalizeEOL_no_cr hnb hmem
  · simp at hmem

/-! Lemmas about the CRLF translator. -/

/-- Whether offset `o` falls strictly between the CR and the LF of an
adjacent CR LF occurrence in `t` (every adjacent CR LF is a scanned pair). -/
def splitsPairAt : Text → Nat → Bool
  | c :: d :: _, 1 => c = '\r' && d = '\n'
  | _ :: rest, o + 2 => splitsPairAt rest (o + 1)
  | _, _ => false

theorem crlfCnt_zero (t : Text) : crlfCnt t 0 = 0 := by
  simp [crlfCnt]

theorem crlfCnt_nil (o : Nat) : crlfCnt [] o = 0 := by
  cases o <;> simp [crlfCnt]

theorem crlfCnt_pair (rest : Text) (o : Nat) :
    crlfCnt ('\r' :: '\n' :: rest) (o + 1) = 1 + crlfCnt rest (o - 1) := rfl

theorem crlfCnt_cons_ne {c : Char} {rest : Text} (o : Nat)
    (h : ¬(c = '\r' ∧ rest.head? = some '\n')) :
    crlfCnt (c :: rest) (o + 1) = crlfCnt rest o := by
  cases rest with
  | nil =>
    by_cases hc : c = '\r'
    · subst hc; simp [crlfCnt]
    · simp [crlfCnt, hc]
  | cons d ds =>
    by_cases hc : c = '\r'
    · subst hc
      have hd : d ≠ '\n' := by simp at h; simpa using h
      simp [crlfCnt, hd]
    · simp [crlfCnt, hc]

theorem crlfPairStarts_cons_ne {c : Char} {rest : Text}
    (h : ¬(c = '\r' ∧ rest.head? = some '\n')) :
    crlfPairStarts (c :: rest) = (crlfPairStarts rest).map (· + 1) := by
  cases rest with
  | nil =>
    by_cases hc : c = '\r'
    · subst hc; simp [crlfPairStarts]
    · simp [crlfPairStarts, hc]
  | cons d ds =>
    by_cases hc : c = '\r'
    · subst hc
      have hd : d ≠ '\n' := by simp at h; simpa using h
      simp [crlfPairStarts, hd]
    · simp [crlfPairStarts, hc]

theorem crlfPairStarts_filter_eq_cnt (t : Text) :
    ∀ o, ((crlfPairStarts t).filter (fun s => decide (s < o))).length = crlfCnt t o := by
  induction t using crlfPairStarts.induct with
  | case1 =>
    intro o
    rw [crlfCnt_nil]
    rfl
  | case2 rest ih =>
    intro o
    rw [show crlfPairStarts ('\r' :: '\n' :: rest) =
      0 :: (crlfPairStarts rest).map (· + 2) from rfl]
    cases o with
    | zero =>
      rw [crlfCnt_zero]
      simp
    | succ m =>
      rw [crlfCnt_pair]
      simp only [List.filter_cons, decide_eq_true_eq]
      rw [if_pos (by omega : (0 : Nat) < m + 1)]
      simp only [List.length_cons, List.filter_map, List.length_map]
      have hcong : (crlfPairStarts rest).filter ((fun s => decide (s < m + 1)) ∘ (· + 2)) =
          (crlfPairStarts rest).filter (fun s => decide (s < m - 1)) := by
        apply List.filter_congr
        intro x _
        simp only [Function.comp]
        by_cases hx : x < m - 1
        · rw [decide_eq_true (by omega : x + 2 < m + 1), decide_eq_true hx]
        · rw [decide_eq_false (by omega : ¬x + 2 < m + 1), decide_eq_false hx]
      rw [hcong, ih (m - 1)]
      omega
  | case3 c rest h1 ih =>
    intro o
    have hnotpair : ¬(c = '\r' ∧ rest.head? = some '\n') := by
      rintro ⟨hc, hd⟩
      cases rest with
      | nil => simp at hd
      | cons d ds =>
        simp at hd
        exact h1 ds hc (by rw [hd])
    rw [crlfPairStarts_cons_ne hnotpair]
    cases o with
    | zero =>
      rw [crlfCnt_zero]
      simp
    | succ m =>
      rw [crlfCnt_cons_ne m hnotpair]
      simp only [List.filter_map, List.length_map]
      have hcong : (crlfPairStarts rest).filter ((fun s => decide (s < m + 1)) ∘ (· + 1)) =
          (crlfPairStarts rest).filter (fun s => decide (s < m)) := by
        apply List.filter_congr
        intro x _
        simp only [Function.comp]
        by_cases hx : x < m
        · rw [decide_eq_true (by omega : x + 1 < m + 1), decide_eq_true hx]
        · rw [decide_eq_false (by omega : ¬x + 1 < m + 1), decide_eq_false hx]
      rw [hcong, ih m]

theorem splitsPairAt_zero (t : Text) : splitsPairAt t 0 = false := by
  simp [splitsPairAt]

theorem splitsPairAt_nil (o : Nat) : splitsPairAt [] o = false := by
  cases o <;> simp [splitsPairAt]

theorem splitsPairAt_single (c : Char) (o : Nat) : splitsPairAt [c] o = false := by
  match o with
  | 0 => simp [splitsPairAt]
  | 1 => rfl
  | n + 2 => simp [splitsPairAt]

theorem splitsPairAt_one (c d : Char) (r : Text) :
    splitsPairAt (c :: d :: r) 1 = (c = '\r' && d = '\n') := rfl

theorem splitsPairAt_step (c : Char) (rest : Text) (o : Nat) :
    splitsPairAt (c :: rest) (o + 2) = splitsPairAt rest (o + 1) := by
  cases rest with
  | nil => simp [splitsPairAt]
  | cons d ds => simp [splitsPairAt]

theorem normalizeEOL_cons_length (c : Char) (u : Text)
    (h : c = '\r' → u.head? ≠ some '\n') :
    (normalizeEOL (c :: u)).length = (normalizeEOL u).length + 1 := by
  by_cases hc : c = '\r'
  · subst hc
    cases u with
    | nil => rfl
    | cons d ds =>
      have hd : d ≠ '\n' := by simpa using h rfl
      rw [show normalizeEOL ('\r' :: d :: ds) = '\r' :: normalizeEOL (d :: ds) by
        simp [normalizeEOL, hd]]
      rfl
  · by_cases hn : c = '\n'
    · subst hn
      rfl
    · rw [normalizeEOL_cons_ne u hc hn]
      rfl

theorem head?_take {l : Text} {o : Nat} (h : 1 ≤ o) : (l.take o).head? = l.head? := by
  cases l with
  | nil => simp
  | cons c cs =>
    match o, h with
    | m + 1, _ => simp

/-- Correctness of the pair count against EOL normalization: for an offset
that does not split a pair, the normalized length of the raw prefix plus the
number of pairs before the offset recovers the offset; for a splitting
offset, the prefix up to the pair's CR does. -/
theorem crlfCnt_spec (t : Text) (o : Nat) :
    o ≤ t.length →
      (splitsPairAt t o = false →
        (normalizeEOL (t.take o)).length + crlfCnt t o = o) ∧
      (splitsPairAt t o = true →
        (normalizeEOL (t.take (o - 1))).length + crlfCnt t o = o) := by
  induction t, o using crlfCnt.induct with
  | case1 t =>
    intro _
    constructor
    · intro _
      rw [crlfCnt_zero]
      simp [normalizeEOL]
    · intro hs
      rw [splitsPairAt_zero] at hs
      exact absurd hs (by simp)
  | case2 n =>
    intro hlen
    simp at hlen
  | case3 rest o ih =>
    intro hlen
    cases o with
    | zero =>
      constructor
      · intro hs
        rw [splitsPairAt_one] at hs
        simp at hs
      · intro _
        rw [show (1 : Nat) - 1 = 0 from rfl, List.take_zero]
        rw [show crlfCnt ('\r' :: '\n' :: rest) 1 = 1 + crlfCnt rest 0 from rfl]
        rw [crlfCnt_zero]
        simp [normalizeEOL]
    | succ m =>
      simp only [Nat.add_sub_cancel] at ih
      have hsplit_eq : splitsPairAt ('\r' :: '\n' :: rest) (m + 2) = splitsPairAt rest m := by
        rw [splitsPairAt_step]
        cases m with
        | zero =>
          rw [splitsPairAt_zero]
          cases rest with
          | nil => rfl
          | cons d ds => rw [splitsPairAt_one]; simp
        | succ k => rw [splitsPairAt_step]
      have hm : m ≤ rest.length := by
        simp at hlen
        omega
      have ihm := ih hm
      have hcnt : crlfCnt ('\r' :: '\n' :: rest) (m + 2) = 1 + crlfCnt rest m := by
        rw [crlfCnt_pair]
        simp
      constructor
      · intro hs
        rw [hsplit_eq] at hs
        have h1 := ihm.1 hs
        rw [hcnt]
        rw [show ('\r' :: '\n' :: rest).take (m + 2) = '\r' :: '\n' :: rest.take m by
          simp [List.take_succ_cons]]
        rw [show normalizeEOL ('\r' :: '\n' :: rest.take m) = '\n' :: normalizeEOL (rest.take m)
          from rfl]
        simp only [List.length_cons]
        omega
      · intro hs
        rw [hsplit_eq] at hs
        have h2 := ihm.2 hs
        have hm1 : 1 ≤ m := by
          by_contra hm0
          have : m = 0 := by omega
          rw [this, splitsPairAt_zero] at hs
          simp at hs
        rw [hcnt]
        rw [show m + 2 - 1 = (m - 1) + 2 by omega]
        rw [show ('\r' :: '\n' :: rest).take ((m - 1) + 2) = '\r' :: '\n' :: rest.take (m - 1) by
          simp [List.take_succ_cons]]
        rw [show normalizeEOL ('\r' :: '\n' :: rest.take (m - 1)) =
          '\n' :: normalizeEOL (rest.take (m - 1)) from rfl]
        simp only [List.length_cons]
        omega
  | case4 c rest o hside ih =>
    intro hlen
    have hnotpair : ¬(c = '\r' ∧ rest.head? = some '\n') := by
      rintro ⟨hc, hd⟩
      cases rest with
      | nil => simp at hd
      | cons d ds =>
        simp at hd
        exact hside ds hc (by rw [hd])
    have hcnt := crlfCnt_cons_ne o hnotpair
    cases o with
    | zero =>
      have hs0 : splitsPairAt (c :: rest) 1 = false := by
        cases rest with
        | nil => exact splitsPairAt_single c 1
        | cons d ds =>
          rw [splitsPairAt_one]
          simp only [Bool.and_eq_false_iff]
          by_cases hc : c = '\r'
          · right
            have : d ≠ '\n' := by
              intro hdn
              exact hnotpair ⟨hc, by simp [hdn]⟩
            simpa using this
          · left
            simpa using hc
      constructor
      · intro _
        rw [hcnt, crlfCnt_zero]
        rw [show (c :: rest).take 1 = [c] by simp]
        rw [normalizeEOL_cons_length c [] (by intro _ hh; simp at hh)]
        simp [normalizeEOL]
      · intro hs
        rw [hs0] at hs
        exact absurd hs (by simp)
    | succ k =>
      have hk : k + 1 ≤ rest.length := by
        simp at hlen
        omega
      have ihk := ih hk
      have hsplit_eq : splitsPairAt (c :: rest) (k + 2) = splitsPairAt rest (k + 1) :=
        splitsPairAt_step c rest k
      constructor
      · intro hs
        rw [hsplit_eq] at hs
        have h1 := ihk.1 hs
        rw [hcnt]
        rw [List.take_succ_cons]
        rw [normalizeEOL_cons_length c (rest.take (k + 1)) (by
          intro hc
          rw [head?_take (by omega : 1 ≤ k + 1)]
          intro hh
          exact hnotpair ⟨hc, hh⟩)]
        omega
      · intro hs
        rw [hsplit_eq] at hs
        have h2 := ihk.2 hs
        rw [hcnt]
        rw [show k + 2 - 1 = k + 1 by omega]
        rw [List.take_succ_cons]
        have hlen1 : (normalizeEOL (c :: rest.take k)).length =
            (normalizeEOL (rest.take k)).length + 1 := by
          apply normalizeEOL_cons_length
          intro hc
          cases k with
          | zero => simp
          | succ j =>
            rw [head?_take (by omega : 1 ≤ j + 1)]
            intro hh
            exact hnotpair ⟨hc, hh⟩
        rw [hlen1]
        rw [show k + 1 - 1 = k by omega] at h2
        omega

theorem crlfTranslate_eq_cnt (t : Text) (o : Nat) :
    crlfTranslate t o = o - crlfCnt t o := by
  unfold crlfTranslate
  rw [crlfPairStarts_filter_eq_cnt]

theorem crlfPairStarts_nil_of_noCRLF {t : Text} (h : hasCRLF t = false) :
    crlfPairStarts t = [] := by
  induction t using crlfPairStarts.induct with
  | case1 => rfl
  | case2 rest ih =>
    rw [show hasCRLF ('\r' :: '\n' :: rest) = true from rfl] at h
    exact absurd h (by simp)
  | case3 c rest h1 ih =>
    have hnotpair : ¬(c = '\r' ∧ rest.head? = some '\n') := by
      rintro ⟨hc, hd⟩
      cases rest with
      | nil => simp at hd
      | cons d ds =>
        simp at hd
        exact h1 ds hc (by rw [hd])
    rw [crlfPairStarts_cons_ne hnotpair]
    have hrest : hasCRLF rest = false := by
      cases rest with
      | nil => rfl
      | cons d ds =>
        by_cases hc : c = '\r'
        · have hd : d ≠ '\n' := by
            intro hdn
            exact hnotpair ⟨hc, by simp [hdn]⟩
          rw [show hasCRLF (c :: d :: ds) = hasCRLF (d :: ds) by
            subst hc; simp [hasCRLF, hd]] at h
          exact h
        · rw [hasCRLF_cons_ne (d :: ds) hc] at h
          exact h
    rw [ih hrest]
    rfl

/-- Claim C6 (counterexample): on the repository's own test text
`"line1\r\nline2\r\nline3"`, `translate(6)` is `5` (as the in-src unit test
asserts), not the `6 + 1 = 7` that the claim's reading — a normalized-text
offset mapped into the raw text by adding the pairs before it — would
require: the translator maps raw offsets to normalized offsets by
subtraction, not the other way around. -/
theorem claim_c6_counterexample :
    crlfTranslate "line1\r\nline2\r\nline3".data 6 = 5 ∧
    crlfTranslate "line1\r\nline2\r\nline3".data 6 ≠ 6 + 1 :=
  ⟨by decide, by decide⟩

/-- Claim C6 (amended): `translate` maps an offset measured over the raw
cell text to the corresponding offset of the EOL-normalized text, namely the
normalized length of the raw prefix before it (equivalently, the raw offset
minus the number of CR LF pairs starting before it); a query landing exactly
between the CR and LF of a pair resolves to the normalized offset of that
pair's start; and for text without CR LF pairs (LF-only, bare CR, or no line
breaks) `translate` is the identity on `[0, length]`. -/
theorem claim_c6_amended_translate_raw_to_normalized :
    ∀ (t : Text) (o : Nat), o ≤ t.length →
      (splitsPairAt t o = false →
        crlfTranslate t o = (normalizeEOL (t.take o)).length) ∧
      (splitsPairAt t o = true →
        crlfTranslate t o = (normalizeEOL (t.take (o - 1))).length) ∧
      (hasCRLF t = false → crlfTranslate t o = o) := by
  intro t o hlen
  have hspec := crlfCnt_spec t o hlen
  have htr := crlfTranslate_eq_cnt t o
  refine ⟨?_, ?_, ?_⟩
  · intro hs
    have h1 := hspec.1 hs
    omega
  · intro hs
    have h2 := hspec.2 hs
    omega
  · intro hcr
    rw [htr]
    have hcnt0 : crlfCnt t o = 0 := by
      rw [← crlfPairStarts_filter_eq_cnt, crlfPairStarts_nil_of_noCRLF hcr]
      rfl
    omega

/-- Witness for the amended C6 on a CRLF text at a non-splitting offset. -/
theorem claim_c6_amended_translate_raw_to_normalized_witness :
    3 ≤ "a\r\nb".data.length ∧
    ((splitsPairAt "a\r\nb".data 3 = false →
        crlfTranslate "a\r\nb".data 3 = (normalizeEOL ("a\r\nb".data.take 3)).length) ∧
      (splitsPairAt "a\r\nb".data 3 = true →
        crlfTranslate "a\r\nb".data 3 = (normalizeEOL ("a\r\nb".data.take (3 - 1))).length) ∧
      (hasCRLF "a\r\nb".data = false → crlfTranslate "a\r\nb".data 3 = 3)) :=
  ⟨by decide, claim_c6_amended_translate_raw_to_normalized _ 3 (by decide)⟩

/-! Lemmas about the position/offset transformer. -/

theorem countNL_cons_ne {c : Char} (rest : Text) (hc : c ≠ '\n') :
    countNL (c :: rest) = countNL rest := by
  simp [countNL, hc]

theorem countNL_append (u v : Text) : countNL (u ++ v) = countNL u + countNL v := by
  induction u with
  | nil => simp [countNL]
  | cons c cs ih =>
    by_cases hc : c = '\n'
    · subst hc
      simp only [List.cons_append]
      simp [countNL, ih]
      omega
    · rw [List.cons_append, countNL_cons_ne _ hc, countNL_cons_ne _ hc, ih]

theorem firstLineLen_cons_ne {c : Char} (rest : Text) (hc : c ≠ '\n') :
    firstLineLen (c :: rest) = firstLineLen rest + 1 := by
  simp [firstLineLen, hc]

theorem splitFirstNL_cons_ne {c : Char} (rest : Text) (hc : c ≠ '\n') :
    splitFirstNL (c :: rest) = (splitFirstNL rest).map (fun p => (c :: p.1, p.2)) := by
  simp [splitFirstNL, hc]

theorem splitFirstNL_none_countNL {t : Text} (h : splitFirstNL t = none) : countNL t = 0 := by
  induction t with
  | nil => rfl
  | cons c rest ih =>
    by_cases hc : c = '\n'
    · subst hc
      simp [splitFirstNL] at h
    · rw [splitFirstNL_cons_ne rest hc] at h
      rw [countNL_cons_ne rest hc]
      exact ih (Option.map_eq_none'.mp h)

theorem splitFirstNL_some_of_countNL {t : Text} (h : 0 < countNL t) :
    ∃ q, splitFirstNL t = some q := by
  cases hs : splitFirstNL t with
  | none =>
    rw [splitFirstNL_none_countNL hs] at h
    exact absurd h (by simp)
  | some q => exact ⟨q, rfl⟩

theorem splitFirstNL_decomp {t : Text} {q : Text × Text} (h : splitFirstNL t = some q) :
    t = q.1 ++ '\n' :: q.2 ∧ countNL q.1 = 0 := by
  induction t using splitFirstNL.induct generalizing q with
  | case1 => simp [splitFirstNL] at h
  | case2 rest =>
    have h' := h
    simp [splitFirstNL] at h'
    cases q
    simp_all [countNL]
  | case3 c rest hc ih =>
    rw [splitFirstNL_cons_ne rest (fun hh => hc hh)] at h
    match hs : splitFirstNL rest with
    | none => rw [hs] at h; simp at h
    | some p =>
      rw [hs] at h
      have hd := ih hs
      have hq : q = (c :: p.1, p.2) := by
        simp at h
        cases q
        simp_all
      subst hq
      refine ⟨by rw [List.cons_append, ← hd.1], ?_⟩
      rw [countNL_cons_ne p.1 (fun hh => hc hh)]
      exact hd.2

theorem splitFirstNL_append {u : Text} (v : Text) (hu : countNL u = 0) :
    splitFirstNL (u ++ '\n' :: v) = some (u, v) := by
  induction u with
  | nil => simp [splitFirstNL]
  | cons c cs ih =>
    have hc : c ≠ '\n' := by
      intro hcc
      subst hcc
      simp [countNL] at hu
    rw [List.cons_append, splitFirstNL_cons_ne _ hc, ih (by rwa [countNL_cons_ne cs hc] at hu)]
    rfl

theorem lastLineLen_none {t : Text} (h : splitFirstNL t = none) : lastLineLen t = t.length := by
  rw [lastLineLen.eq_def, h]

theorem lastLineLen_some {t : Text} {q : Text × Text} (h : splitFirstNL t = some q) :
    lastLineLen t = lastLineLen q.2 := by
  rw [lastLineLen.eq_def, h]

theorem getPositionGo_cons_eq {c : Char} (rest : Text) (o : Nat) (hc : c ≠ '\n') :
    getPositionGo (c :: rest) (o + 1) =
      (if (getPositionGo rest o).line = 0 then ⟨0, (getPositionGo rest o).character + 1⟩
       else getPositionGo rest o) := by
  simp [getPositionGo, hc]

theorem getPositionGo_nl (rest : Text) (o : Nat) :
    getPositionGo ('\n' :: rest) (o + 1) =
      ⟨(getPositionGo rest o).line + 1, (getPositionGo rest o).character⟩ := rfl

theorem getOffsetGo_succ_eq (t : Text) (l c : Nat) :
    getOffsetGo t (l + 1) c =
      match splitFirstNL t with
      | some p => p.1.length + 1 + getOffsetGo p.2 l c
      | none => min c t.length := rfl

theorem getPositionGo_line_le (t : Text) (o : Nat) :
    (getPositionGo t o).line ≤ countNL t := by
  induction t, o using getPositionGo.induct with
  | case1 t => simp [getPositionGo]
  | case2 o => simp [getPositionGo, countNL]
  | case3 rest o ih =>
    rw [getPositionGo_nl]
    rw [show countNL ('\n' :: rest) = countNL rest + 1 from rfl]
    simpa using ih
  | case4 c rest o hc p hz ih =>
    have hc' : c ≠ '\n' := fun hh => hc hh
    rw [getPositionGo_cons_eq rest o hc', if_pos hz, countNL_cons_ne rest hc']
    simp
  | case5 c rest o hc p hz ih =>
    have hc' : c ≠ '\n' := fun hh => hc hh
    rw [getPositionGo_cons_eq rest o hc', if_neg hz, countNL_cons_ne rest hc']
    exact ih

theorem getPositionGo_line_zero (t : Text) (o : Nat) (hlen : o ≤ t.length)
    (hline : (getPositionGo t o).line = 0) :
    (getPositionGo t o).character = o ∧ o ≤ firstLineLen t := by
  induction t, o using getPositionGo.induct with
  | case1 t => simp [getPositionGo]
  | case2 o => simp at hlen
  | case3 rest o ih =>
    rw [getPositionGo_nl] at hline
    simp at hline
  | case4 c rest o hc p hz ih =>
    have hc' : c ≠ '\n' := fun hh => hc hh
    rw [getPositionGo_cons_eq rest o hc', if_pos hz] at hline ⊢
    have hrec := ih (by simpa using hlen) hz
    rw [firstLineLen_cons_ne rest hc']
    exact ⟨by simp [hrec.1], by omega⟩
  | case5 c rest o hc p hz ih =>
    have hc' : c ≠ '\n' := fun hh => hc hh
    rw [getPositionGo_cons_eq rest o hc', if_neg hz] at hline
    exact absurd hline hz

theorem getOffsetGo_getPositionGo (t : Text) (o : Nat) (hlen : o ≤ t.length) :
    getOffsetGo t (getPositionGo t o).line (getPositionGo t o).character = o := by
  induction t, o using getPositionGo.induct with
  | case1 t => simp [getPositionGo, getOffsetGo]
  | case2 o => simp at hlen
  | case3 rest o ih =>
    rw [getPositionGo_nl]
    simp only
    rw [show getOffsetGo ('\n' :: rest) ((getPositionGo rest o).line + 1)
        (getPositionGo rest o).character =
      0 + 1 + getOffsetGo rest (getPositionGo rest o).line (getPositionGo rest o).character
      from rfl]
    rw [ih (by simpa using hlen)]
    omega
  | case4 c rest o hc p hz ih =>
    have hc' : c ≠ '\n' := fun hh => hc hh
    have hlen' : o ≤ rest.length := by simpa using hlen
    rw [getPositionGo_cons_eq rest o hc', if_pos hz]
    have hrec := getPositionGo_line_zero rest o hlen' hz
    rw [show getOffsetGo (c :: rest) 0 ((getPositionGo rest o).character + 1) =
      min ((getPositionGo rest o).character + 1) (firstLineLen (c :: rest)) from rfl]
    rw [firstLineLen_cons_ne rest hc', hrec.1]
    omega
  | case5 c rest o hc p hz ih =>
    have hc' : c ≠ '\n' := fun hh => hc hh
    have hlen' : o ≤ rest.length := by simpa using hlen
    rw [getPositionGo_cons_eq rest o hc', if_neg hz]
    have hih := ih hlen'
    match hl : (getPositionGo rest o).line with
    | 0 => exact absurd hl hz
    | l + 1 =>
      rw [hl] at hih
      have hq : ∃ q, splitFirstNL rest = some q := by
        apply splitFirstNL_some_of_countNL
        have := getPositionGo_line_le rest o
        omega
      obtain ⟨q, hq⟩ := hq
      have he1 : getOffsetGo (c :: rest) (l + 1) (getPositionGo rest o).character =
          (c :: q.1).length + 1 + getOffsetGo q.2 l (getPositionGo rest o).character := by
        rw [getOffsetGo_succ_eq, splitFirstNL_cons_ne rest hc', hq]
        rfl
      have he2 : getOffsetGo rest (l + 1) (getPositionGo rest o).character =
          q.1.length + 1 + getOffsetGo q.2 l (getPositionGo rest o).character := by
        rw [getOffsetGo_succ_eq, hq]
      rw [he1]
      rw [he2] at hih
      simp only [List.length_cons]
      omega

theorem splitFirstNL_none_of_countNL {t : Text} (h : countNL t = 0) :
    splitFirstNL t = none := by
  cases hs : splitFirstNL t with
  | none => rfl
  | some q =>
    have hd := splitFirstNL_decomp hs
    rw [hd.1, countNL_append] at h
    simp [countNL] at h

theorem getPositionGo_append {u : Text} (v : Text) (hu : countNL u = 0) (n : Nat) :
    getPositionGo (u ++ '\n' :: v) (u.length + 1 + n) =
      ⟨(getPositionGo v n).line + 1, (getPositionGo v n).character⟩ := by
  induction u with
  | nil =>
    rw [show ([] : Text).length + 1 + n = n + 1 by simp only [List.length_nil]; omega]
    simp only [List.nil_append]
    exact getPositionGo_nl v n
  | cons c u' ih =>
    have hc : c ≠ '\n' := by
      intro hcc
      subst hcc
      simp [countNL] at hu
    have hu' : countNL u' = 0 := by rwa [countNL_cons_ne u' hc] at hu
    rw [show (c :: u').length + 1 + n = (u'.length + 1 + n) + 1 by simp; omega]
    rw [List.cons_append, getPositionGo_cons_eq _ _ hc, ih hu']
    simp

theorem getOffsetGo_append {u : Text} (v : Text) (hu : countNL u = 0) (l c : Nat) :
    getOffsetGo (u ++ '\n' :: v) (l + 1) c = u.length + 1 + getOffsetGo v l c := by
  rw [getOffsetGo_succ_eq, splitFirstNL_append v hu]

theorem getPositionGo_length (t : Text) :
    getPositionGo t t.length = ⟨countNL t, lastLineLen t⟩ := by
  induction t with
  | nil =>
    rw [show lastLineLen [] = 0 from lastLineLen_none rfl]
    rfl
  | cons c rest ih =>
    by_cases hc : c = '\n'
    · subst hc
      rw [show ('\n' :: rest).length = rest.length + 1 from rfl, getPositionGo_nl, ih]
      rw [lastLineLen_some (show splitFirstNL ('\n' :: rest) = some ([], rest) from rfl)]
      rfl
    · rw [show (c :: rest).length = rest.length + 1 from rfl, getPositionGo_cons_eq _ _ hc, ih]
      by_cases hz : countNL rest = 0
      · rw [if_pos (by simpa using hz)]
        have hnone : splitFirstNL rest = none := splitFirstNL_none_of_countNL hz
        have hnone' : splitFirstNL (c :: rest) = none := by
          rw [splitFirstNL_cons_ne rest hc, hnone]
          rfl
        rw [lastLineLen_none hnone']
        rw [countNL_cons_ne rest hc, hz]
        simp only [List.length_cons]
        rw [lastLineLen_none hnone]
      · rw [if_neg (by simpa using hz)]
        obtain ⟨q, hq⟩ := splitFirstNL_some_of_countNL (Nat.pos_of_ne_zero hz)
        have hsome : splitFirstNL (c :: rest) = some (c :: q.1, q.2) := by
          rw [splitFirstNL_cons_ne rest hc, hq]
          rfl
        rw [countNL_cons_ne rest hc]
        rw [lastLineLen_some hsome]
        rw [lastLineLen_some hq]

theorem getPositionGo_char_lastline (t : Text) (o : Nat) (hlen : o ≤ t.length)
    (hline : (getPositionGo t o).line = countNL t) :
    (getPositionGo t o).character ≤ lastLineLen t := by
  induction t, o using getPositionGo.induct with
  | case1 t => simp [getPositionGo]
  | case2 o => simp at hlen
  | case3 rest o ih =>
    rw [getPositionGo_nl] at hline ⊢
    simp only at hline ⊢
    rw [show countNL ('\n' :: rest) = countNL rest + 1 from rfl] at hline
    rw [lastLineLen_some (show splitFirstNL ('\n' :: rest) = some ([], rest) from rfl)]
    exact ih (by simpa using hlen) (by omega)
  | case4 c rest o hc p hz ih =>
    have hc' : c ≠ '\n' := fun hh => hc hh
    have hlen' : o ≤ rest.length := by simpa using hlen
    have hz' : (getPositionGo rest o).line = 0 := hz
    rw [getPositionGo_cons_eq rest o hc', if_pos hz'] at hline ⊢
    rw [countNL_cons_ne rest hc'] at hline
    have hl0 : countNL rest = 0 := by simpa using hline.symm
    have hrec := getPositionGo_line_zero rest o hlen' hz'
    have hnone : splitFirstNL (c :: rest) = none := by
      rw [splitFirstNL_cons_ne rest hc', splitFirstNL_none_of_countNL hl0]
      rfl
    rw [lastLineLen_none hnone]
    show (getPositionGo rest o).character + 1 ≤ (c :: rest).length
    simp only [List.length_cons]
    have h1 := hrec.1
    omega
  | case5 c rest o hc p hz ih =>
    have hc' : c ≠ '\n' := fun hh => hc hh
    have hlen' : o ≤ rest.length := by simpa using hlen
    have hz' : (getPositionGo rest o).line ≠ 0 := hz
    rw [getPositionGo_cons_eq rest o hc', if_neg hz'] at hline ⊢
    rw [countNL_cons_ne rest hc'] at hline
    have hcnt : 0 < countNL rest := by
      have := getPositionGo_line_le rest o
      omega
    obtain ⟨q, hq⟩ := splitFirstNL_some_of_countNL hcnt
    have hsome : splitFirstNL (c :: rest) = some (c :: q.1, q.2) := by
      rw [splitFirstNL_cons_ne rest hc', hq]
      rfl
    rw [lastLineLen_some hsome]
    rw [← lastLineLen_some hq]
    exact ih hlen' hline

/-! Lemmas about the host's raw line semantics, relating the raw line
structure (CR LF, CR and LF all break lines) to the lines of the
EOL-normalized text (only LF breaks lines; every CR LF became LF and every
bare CR survives as an in-line character). -/

/-- Whether a text contains no line-break character at all. -/
def noBreak : Text → Bool
  | [] => true
  | '\r' :: _ => false
  | '\n' :: _ => false
  | _ :: rest => noBreak rest

theorem noBreak_cons {c : Char} {rest : Text} (h : noBreak (c :: rest) = true) :
    c ≠ '\r' ∧ c ≠ '\n' ∧ noBreak rest = true := by
  by_cases hr : c = '\r'
  · subst hr; simp [noBreak] at h
  · by_cases hn : c = '\n'
    · subst hn; simp [noBreak] at h
    · exact ⟨hr, hn, by rwa [show noBreak (c :: rest) = noBreak rest by
        simp [noBreak, hr, hn]] at h⟩

theorem countNL_of_noBreak {t : Text} (h : noBreak t = true) : countNL t = 0 := by
  induction t with
  | nil => rfl
  | cons c rest ih =>
    obtain ⟨h1, h2, h3⟩ := noBreak_cons h
    rw [countNL_cons_ne rest h2]
    exact ih h3

theorem normalizeEOL_append_noBreak {f : Text} (x : Text) (hf : noBreak f = true) :
    normalizeEOL (f ++ x) = f ++ normalizeEOL x := by
  induction f with
  | nil => rfl
  | cons c cs ih =>
    obtain ⟨h1, h2, h3⟩ := noBreak_cons hf
    rw [List.cons_append, normalizeEOL_cons_ne _ h1 h2, ih h3]
    rfl

theorem rawSplitFirst_cons_ne {c : Char} (rest : Text) (hr : c ≠ '\r') (hn : c ≠ '\n') :
    rawSplitFirst (c :: rest) = (rawSplitFirst rest).map (fun p => (c :: p.1, p.2)) := by
  simp [rawSplitFirst, hr, hn]

theorem rawSplitFirst_none_noBreak {t : Text} (h : rawSplitFirst t = none) :
    noBreak t = true := by
  induction t using rawSplitFirst.induct with
  | case1 => rfl
  | case2 rest => simp [rawSplitFirst] at h
  | case3 rest h1 =>
    rw [show rawSplitFirst ('\r' :: rest) = some ([], rest) by
      cases rest with
      | nil => rfl
      | cons d ds =>
        by_cases hd : d = '\n'
        · exact absurd (by rw [hd]) (fun hh => h1 ds hh)
        · simp [rawSplitFirst, hd]] at h
    simp at h
  | case4 rest => simp [rawSplitFirst] at h
  | case5 c rest h1 h2 h3 ih =>
    have hr : c ≠ '\r' := fun hh => h2 hh
    have hn : c ≠ '\n' := fun hh => h3 hh
    rw [rawSplitFirst_cons_ne rest hr hn] at h
    have := ih (Option.map_eq_none'.mp h)
    rw [show noBreak (c :: rest) = noBreak rest by simp [noBreak, hr, hn]]
    exact this

/-- Decomposition of a raw text at its first line break. -/
theorem rawSplitFirst_decomp {t : Text} {p : Text × Text} (h : rawSplitFirst t = some p) :
    noBreak p.1 = true ∧
      (t = p.1 ++ '\r' :: '\n' :: p.2 ∨
       (t = p.1 ++ '\r' :: p.2 ∧ p.2.head? ≠ some '\n') ∨
       t = p.1 ++ '\n' :: p.2) := by
  induction t using rawSplitFirst.induct generalizing p with
  | case1 => simp [rawSplitFirst] at h
  | case2 rest =>
    have hp : p = ([], rest) := by
      have h' := h
      simp [rawSplitFirst] at h'
      cases p
      simp_all
    subst hp
    exact ⟨rfl, Or.inl rfl⟩
  | case3 rest h1 =>
    have hs : rawSplitFirst ('\r' :: rest) = some ([], rest) := by
      cases rest with
      | nil => rfl
      | cons d ds =>
        by_cases hd : d = '\n'
        · exact absurd (by rw [hd]) (fun hh => h1 ds hh)
        · simp [rawSplitFirst, hd]
    rw [hs] at h
    have hp : p = ([], rest) := by
      cases p
      simp_all
    subst hp
    refine ⟨rfl, Or.inr (Or.inl ⟨rfl, ?_⟩)⟩
    cases rest with
    | nil => simp
    | cons d ds =>
      simp only [List.head?_cons]
      intro hh
      simp at hh
      exact h1 ds (by rw [hh])
  | case4 rest =>
    have hp : p = ([], rest) := by
      have h' := h
      simp [rawSplitFirst] at h'
      cases p
      simp_all
    subst hp
    exact ⟨rfl, Or.inr (Or.inr rfl)⟩
  | case5 c rest h1 h2 h3 ih =>
    have hr : c ≠ '\r' := fun hh => h2 hh
    have hn : c ≠ '\n' := fun hh => h3 hh
    rw [rawSplitFirst_cons_ne rest hr hn] at h
    match hs : rawSplitFirst rest with
    | none => rw [hs] at h; simp at h
    | some q =>
      rw [hs] at h
      have hrec : noBreak q.1 = true ∧ _ := ih hs
      have hp : p = (c :: q.1, q.2) := by
        simp at h
        cases p
        simp_all
      subst hp
      obtain ⟨hnb, hcases⟩ := ih hs
      refine ⟨by rw [show noBreak (c :: q.1) = noBreak q.1 by simp [noBreak, hr, hn]]; exact hnb, ?_⟩
      rcases hcases with hcc | hcc | hcc
      · exact Or.inl (by rw [List.cons_append, ← hcc])
      · exact Or.inr (Or.inl ⟨by rw [List.cons_append, ← hcc.1], hcc.2⟩)
      · exact Or.inr (Or.inr (by rw [List.cons_append, ← hcc]))

theorem rawLines_none {t : Text} (h : rawSplitFirst t = none) : rawLines t = [t] := by
  rw [rawLines.eq_def, h]

theorem rawLines_some {t : Text} {p : Text × Text} (h : rawSplitFirst t = some p) :
    rawLines t = p.1 :: rawLines p.2 := by
  rw [rawLines.eq_def, h]

theorem rawLines_ne_nil (t : Text) : rawLines t ≠ [] := by
  cases hs : rawSplitFirst t with
  | none => rw [rawLines_none hs]; simp
  | some p => rw [rawLines_some hs]; simp

/-- Counting and last-line correspondence between the raw lines and the
lines of the EOL-normalized text: normalization can only merge raw lines
(each bare CR hides one raw line break inside a normalized line); when the
counts agree, the final lines coincide. -/
theorem rawLines_vs_norm (t : Text) :
    countNL (normalizeEOL t) + 1 ≤ (rawLines t).length ∧
    (countNL (normalizeEOL t) + 1 = (rawLines t).length →
      lastLineLen (normalizeEOL t) = ((rawLines t).getLastD []).length) := by
  induction t using rawLines.induct with
  | case1 t hsplit =>
    rw [rawLines_none hsplit]
    have hnb := rawSplitFirst_none_noBreak hsplit
    have hid : normalizeEOL t = t := by
      have := normalizeEOL_append_noBreak [] hnb
      simpa [normalizeEOL] using this
    rw [hid]
    have hc0 : countNL t = 0 := countNL_of_noBreak hnb
    refine ⟨by simp [hc0], ?_⟩
    intro _
    rw [lastLineLen_none (splitFirstNL_none_of_countNL hc0)]
    rfl
  | case2 t p hsplit ih =>
    rw [rawLines_some hsplit]
    obtain ⟨hnb, hcases⟩ := rawSplitFirst_decomp hsplit
    have hf0 : countNL p.1 = 0 := countNL_of_noBreak hnb
    have hlast_cons : ((p.1 :: rawLines p.2).getLastD []) = (rawLines p.2).getLastD [] := by
      rw [List.getLastD_cons]
      rw [List.getLastD_eq_getLast?, List.getLastD_eq_getLast?]
      have hne := rawLines_ne_nil p.2
      cases hgl : (rawLines p.2).getLast? with
      | none =>
        exact absurd (List.getLast?_eq_none_iff.mp hgl) hne
      | some x => rfl
    rcases hcases with hcc | hcc | hcc
    · have hnorm : normalizeEOL t = p.1 ++ '\n' :: normalizeEOL p.2 := by
        rw [hcc, normalizeEOL_append_noBreak _ hnb]
        rfl
      rw [hnorm, countNL_append, hf0]
      rw [show countNL ('\n' :: normalizeEOL p.2) = countNL (normalizeEOL p.2) + 1 from rfl]
      constructor
      · simp only [List.length_cons]
        omega
      · intro heq
        rw [lastLineLen_some (splitFirstNL_append (normalizeEOL p.2) hf0)]
        rw [hlast_cons]
        apply ih.2
        simp only [List.length_cons] at heq
        omega
    · have hnorm : normalizeEOL t = p.1 ++ '\r' :: normalizeEOL p.2 := by
        rw [hcc.1, normalizeEOL_append_noBreak _ hnb]
        congr 1
        cases hp2 : p.2 with
        | nil => rfl
        | cons d ds =>
          have hd : d ≠ '\n' := by
            intro hdn
            apply hcc.2
            rw [hp2, hdn]
            rfl
          simp [normalizeEOL, hd]
      rw [hnorm, countNL_append, hf0]
      rw [countNL_cons_ne _ (by decide : ('\r' : Char) ≠ '\n')]
      constructor
      · simp only [List.length_cons]
        have := ih.1
        omega
      · intro heq
        simp only [List.length_cons] at heq
        have := ih.1
        omega
    · have hnorm : normalizeEOL t = p.1 ++ '\n' :: normalizeEOL p.2 := by
        rw [hcc, normalizeEOL_append_noBreak _ hnb]
        rfl
      rw [hnorm, countNL_append, hf0]
      rw [show countNL ('\n' :: normalizeEOL p.2) = countNL (normalizeEOL p.2) + 1 from rfl]
      constructor
      · simp only [List.length_cons]
        omega
      · intro heq
        rw [lastLineLen_some (splitFirstNL_append (normalizeEOL p.2) hf0)]
        rw [hlast_cons]
        apply ih.2
        simp only [List.length_cons] at heq
        omega

theorem countNL_eq_zero_of_not_mem {u : Text} (h : '\n' ∉ u) : countNL u = 0 := by
  induction u with
  | nil => rfl
  | cons c cs ih =>
    have hc : c ≠ '\n' := by
      intro hcc
      exact h (by simp [hcc])
    rw [countNL_cons_ne cs hc]
    exact ih (fun hh => h (by simp [hh]))

/-- Claim C4: for a (projected) code cell, whenever the queried alt-offset
range's exclusive end falls on the cell's last projected line — in
particular when it is exactly the cell's last offset, or beyond it (the
transformer clamps the offset to the text length) — `fromAltOffsetRange`
returns a host range whose end line never exceeds the cell's actual (raw)
last line and whose end column never exceeds the true raw last-line
length. -/
theorem claim_c4_end_clamped_to_true_last_line :
    ∀ (cell : NotebookCell) (r : OffsetRange),
      cell.kind = NotebookCellKind.code →
      (getPosition (AlternativeNotebookCellTextDocument.fromNotebookCell cell
          getBlockComment getLineCommentStart).altText r.endExclusive).line =
        countNL (AlternativeNotebookCellTextDocument.fromNotebookCell cell
          getBlockComment getLineCommentStart).altText →
      ((AlternativeNotebookCellTextDocument.fromNotebookCell cell getBlockComment
          getLineCommentStart).fromAltOffsetRange r).endPos.line + 1 ≤
        (rawLines cell.rawText).length ∧
      (((AlternativeNotebookCellTextDocument.fromNotebookCell cell getBlockComment
          getLineCommentStart).fromAltOffsetRange r).endPos.line + 1 =
          (rawLines cell.rawText).length →
        ((AlternativeNotebookCellTextDocument.fromNotebookCell cell getBlockComment
          getLineCommentStart).fromAltOffsetRange r).endPos.character ≤
          ((rawLines cell.rawText).getLastD []).length) := by
  intro cell r hkind hlast
  have hA : (AlternativeNotebookCellTextDocument.fromNotebookCell cell getBlockComment
      getLineCommentStart).altText =
      generateCellTextMarker getLineCommentStart cell ++ '\n' :: normalizeEOL cell.rawText := by
    unfold AlternativeNotebookCellTextDocument.fromNotebookCell
      AlternativeNotebookCellTextDocument.altText
    simp only [hkind]
    simp [EOL]
  have hm0 : countNL (generateCellTextMarker getLineCommentStart cell) = 0 :=
    countNL_eq_zero_of_not_mem (marker_no_ctrl cell).2
  have hcA : countNL (AlternativeNotebookCellTextDocument.fromNotebookCell cell getBlockComment
      getLineCommentStart).altText = countNL (normalizeEOL cell.rawText) + 1 := by
    rw [hA, countNL_append, hm0]
    rw [show countNL ('\n' :: normalizeEOL cell.rawText) =
      countNL (normalizeEOL cell.rawText) + 1 from rfl]
    omega
  have hextra : (AlternativeNotebookCellTextDocument.fromNotebookCell cell getBlockComment
      getLineCommentStart).extraLines = 1 := by
    unfold AlternativeNotebookCellTextDocument.extraLines
    simp [AlternativeNotebookCellTextDocument.fromNotebookCell, hkind]
  have hraw := rawLines_vs_norm cell.rawText
  have hendline : ((AlternativeNotebookCellTextDocument.fromNotebookCell cell getBlockComment
      getLineCommentStart).fromAltOffsetRange r).endPos.line =
      countNL (normalizeEOL cell.rawText) := by
    show (getPosition (AlternativeNotebookCellTextDocument.fromNotebookCell cell getBlockComment
      getLineCommentStart).altText r.endExclusive).line -
      (AlternativeNotebookCellTextDocument.fromNotebookCell cell getBlockComment
        getLineCommentStart).extraLines = countNL (normalizeEOL cell.rawText)
    rw [hlast, hextra, hcA]
    omega
  have hchar_le : ((AlternativeNotebookCellTextDocument.fromNotebookCell cell getBlockComment
      getLineCommentStart).fromAltOffsetRange r).endPos.character ≤
      (getPosition (AlternativeNotebookCellTextDocument.fromNotebookCell cell getBlockComment
        getLineCommentStart).altText r.endExclusive).character := by
    show (if _ = _ then
        min (getPosition (AlternativeNotebookCellTextDocument.fromNotebookCell cell getBlockComment
          getLineCommentStart).altText r.endExclusive).character _
      else (getPosition (AlternativeNotebookCellTextDocument.fromNotebookCell cell getBlockComment
        getLineCommentStart).altText r.endExclusive).character) ≤ _
    split
    · exact Nat.min_le_left _ _
    · exact Nat.le_refl _
  constructor
  · rw [hendline]
    exact hraw.1
  · intro heq
    rw [hendline] at heq
    have hlastline : (getPosition (AlternativeNotebookCellTextDocument.fromNotebookCell cell
        getBlockComment getLineCommentStart).altText r.endExclusive).character ≤
        lastLineLen (AlternativeNotebookCellTextDocument.fromNotebookCell cell getBlockComment
          getLineCommentStart).altText := by
      apply getPositionGo_char_lastline _ _ (Nat.min_le_right _ _)
      exact hlast
    have hll : lastLineLen (AlternativeNotebookCellTextDocument.fromNotebookCell cell
        getBlockComment getLineCommentStart).altText =
        lastLineLen (normalizeEOL cell.rawText) := by
      rw [hA]
      exact lastLineLen_some (splitFirstNL_append (normalizeEOL cell.rawText) hm0)
    have hlnorm := hraw.2 heq
    rw [hll, hlnorm] at hlastline
    omega

/-- Witness for C4: a two-line cell queried past its end. -/
theorem claim_c4_end_clamped_to_true_last_line_witness :
    ((AlternativeNotebookCellTextDocument.fromNotebookCell
        ⟨0, NotebookCellKind.code, "ab\ncd".data⟩ getBlockComment
        getLineCommentStart).fromAltOffsetRange ⟨0, 99⟩).endPos.line + 1 ≤
      (rawLines "ab\ncd".data).length ∧
    (((AlternativeNotebookCellTextDocument.fromNotebookCell
        ⟨0, NotebookCellKind.code, "ab\ncd".data⟩ getBlockComment
        getLineCommentStart).fromAltOffsetRange ⟨0, 99⟩).endPos.line + 1 =
        (rawLines "ab\ncd".data).length →
      ((AlternativeNotebookCellTextDocument.fromNotebookCell
        ⟨0, NotebookCellKind.code, "ab\ncd".data⟩ getBlockComment
        getLineCommentStart).fromAltOffsetRange ⟨0, 99⟩).endPos.character ≤
        ((rawLines "ab\ncd".data).getLastD []).length) :=
  claim_c4_end_clamped_to_true_last_line ⟨0, NotebookCellKind.code, "ab\ncd".data⟩ ⟨0, 99⟩
    (by decide) (by decide)

/-! Well-formedness of reachable projections, and the search/walk lemmas
used by the range-translation claims. -/

/-- Shape of every projected cell document of a reachable projection built
by `withoutMDCells` (markup cells are excluded, so every projected cell is a
code cell with the marker-line prefix, no suffix, and the normalized cell
text as its body). -/
def cellDocWF (ac : AlternativeNotebookCellTextDocument) : Bool :=
  ac.cell.kind = NotebookCellKind.code &&
  ac.prefixText = generateCellTextMarker getLineCommentStart ac.cell ++ EOL &&
  ac.suffixText = [] &&
  ac.code = normalizeEOL ac.cell.rawText

/-- Entry-level form of `cellDocWF`. -/
def entryWF (en : AltCellEntry) : Bool :=
  cellDocWF en.altCell

/-- Well-formedness of a reachable projection: the index chain is in place,
the projected cell documents are pairwise distinct, and every entry has the
reachable shape. -/
def docWF (d : AlternativeNotebookTextDocument) : Bool :=
  indexChainFrom 0 0 d.altCells &&
  decide ((d.altCells.map (fun en => en.altCell.cell.id)).Nodup) &&
  d.altCells.all entryWF

/-- Flattened span of one entry including its trailing separator. -/
def entrySpan (en : AltCellEntry) : Nat :=
  en.altCell.altText.length + EOL.length

theorem indexChainFrom_cons {l o : Nat} {e : AltCellEntry} {rest : List AltCellEntry}
    (h : indexChainFrom l o (e :: rest) = true) :
    e.startLine = l ∧ e.startOffset = o ∧
      indexChainFrom (l + e.altCell.lineCount) (o + e.altCell.altText.length + EOL.length)
        rest = true := by
  simp only [indexChainFrom, Bool.and_eq_true, decide_eq_true_eq] at h
  exact ⟨h.1.1, h.1.2, h.2⟩

theorem indexChainFrom_min {li : List AltCellEntry} :
    ∀ {l o : Nat}, indexChainFrom l o li = true → ∀ x ∈ li, o ≤ x.startOffset := by
  induction li with
  | nil => intro l o _ x hx; simp at hx
  | cons e rest ih =>
    intro l o h x hx
    obtain ⟨h1, h2, h3⟩ := indexChainFrom_cons h
    rcases List.mem_cons.mp hx with hx | hx
    · subst hx; omega
    · have := ih h3 x hx
      omega

theorem indexChainFrom_decomp {e : AltCellEntry} {post : List AltCellEntry} :
    ∀ (pre : List AltCellEntry) {l o : Nat},
      indexChainFrom l o (pre ++ e :: post) = true →
      e.startOffset = o + (pre.map entrySpan).sum ∧
      indexChainFrom e.startLine e.startOffset (e :: post) = true := by
  intro pre
  induction pre with
  | nil =>
    intro l o h
    obtain ⟨h1, h2, h3⟩ := indexChainFrom_cons h
    constructor
    · simpa using h2
    · have hnext : indexChainFrom (e.startLine + e.altCell.lineCount)
          (e.startOffset + e.altCell.altText.length + EOL.length) post = true := by
        rw [h1, h2]
        exact h3
      simp [indexChainFrom, hnext]
  | cons a pre' ih =>
    intro l o h
    rw [List.cons_append] at h
    obtain ⟨h1, h2, h3⟩ := indexChainFrom_cons h
    have := ih h3
    constructor
    · rw [this.1]
      simp [entrySpan]
      omega
    · exact this.2

theorem findLastIdx?_none {p : AltCellEntry → Bool} {li : List AltCellEntry}
    (h : ∀ x ∈ li, p x = false) : findLastIdx? p li = none := by
  induction li with
  | nil => rfl
  | cons e rest ih =>
    rw [show findLastIdx? p (e :: rest) =
      (match findLastIdx? p rest with
       | some i => some (i + 1)
       | none => if p e then some 0 else none) from rfl]
    rw [ih (fun x hx => h x (by simp [hx]))]
    rw [h e (by simp)]
    rfl

theorem findLastIdx?_concat {p : AltCellEntry → Bool} {e : AltCellEntry}
    {post : List AltCellEntry} (hp : p e = true) (hpost : ∀ x ∈ post, p x = false) :
    ∀ pre : List AltCellEntry, findLastIdx? p (pre ++ e :: post) = some pre.length := by
  intro pre
  induction pre with
  | nil =>
    rw [List.nil_append]
    rw [show findLastIdx? p (e :: post) =
      (match findLastIdx? p post with
       | some i => some (i + 1)
       | none => if p e then some 0 else none) from rfl]
    rw [findLastIdx?_none hpost, hp]
    rfl
  | cons a pre' ih =>
    rw [List.cons_append]
    rw [show findLastIdx? p (a :: (pre' ++ e :: post)) =
      (match findLastIdx? p (pre' ++ e :: post) with
       | some i => some (i + 1)
       | none => if p a then some 0 else none) from rfl]
    rw [ih]
    rfl

theorem toAltOffsetRangeGo_skip (cell : NotebookCell) (ranges : List VSRange)
    (rest : List AltCellEntry) :
    ∀ (pre : List AltCellEntry) (acc : Nat), (∀ x ∈ pre, x.altCell.cell ≠ cell) →
      toAltOffsetRangeGo cell ranges (pre ++ rest) acc =
      toAltOffsetRangeGo cell ranges rest (acc + (pre.map entrySpan).sum) := by
  intro pre
  induction pre with
  | nil => intro acc _; simp
  | cons a pre' ih =>
    intro acc h
    rw [List.cons_append]
    rw [show toAltOffsetRangeGo cell ranges (a :: (pre' ++ rest)) acc =
      (if a.altCell.cell = cell then
        ranges.map (fun range =>
          let offsetRange := a.altCell.toAltOffsetRange range
          ⟨acc + offsetRange.start, acc + offsetRange.endExclusive⟩)
      else toAltOffsetRangeGo cell ranges (pre' ++ rest)
        (acc + a.altCell.altText.length + EOL.length)) from rfl]
    rw [if_neg (h a (by simp))]
    rw [ih _ (fun x hx => h x (by simp [hx]))]
    congr 1
    simp [entrySpan]
    omega

/-- Core cell-level round trip on the alt text `marker ++ LF ++ body`: a
position computed from an in-body offset, shifted down one line, then back
up and through `getOffset`, recovers the offset. -/
theorem roundtrip_core (marker N : Text) (hm0 : countNL marker = 0) (o : Nat)
    (h1 : marker.length + 1 ≤ o) (h2 : o ≤ marker.length + 1 + N.length) :
    getPosition (marker ++ '\n' :: N) o =
      ⟨(getPositionGo N (o - (marker.length + 1))).line + 1,
       (getPositionGo N (o - (marker.length + 1))).character⟩ ∧
    getOffsetGo (marker ++ '\n' :: N) ((getPositionGo N (o - (marker.length + 1))).line + 1)
      (getPositionGo N (o - (marker.length + 1))).character = o := by
  obtain ⟨n, rfl⟩ : ∃ n, o = marker.length + 1 + n := ⟨o - (marker.length + 1), by omega⟩
  have hn : n ≤ N.length := by omega
  rw [show marker.length + 1 + n - (marker.length + 1) = n by omega]
  constructor
  · unfold getPosition
    rw [show min (marker.length + 1 + n) (marker ++ '\n' :: N).length =
      marker.length + 1 + n by simp; omega]
    exact getPositionGo_append N hm0 n
  · rw [getOffsetGo_append N hm0, getOffsetGo_getPositionGo N n hn]

/-- Cell-level round trip: for an alt-offset range lying inside the cell's
body (at or after the end of the marker prefix), translating to a host range
and back recovers the range. -/
theorem cell_roundtrip (ac : AlternativeNotebookCellTextDocument)
    (hwf : cellDocWF ac = true) (a b : Nat)
    (ha : ac.prefixText.length ≤ a) (hab : a ≤ b) (hb : b ≤ ac.altText.length) :
    ac.toAltOffsetRange (ac.fromAltOffsetRange ⟨a, b⟩) = ⟨a, b⟩ := by
  simp only [cellDocWF, Bool.and_eq_true, decide_eq_true_eq] at hwf
  obtain ⟨⟨⟨hkind, hpfx⟩, hsfx⟩, hcode⟩ := hwf
  have hm0 : countNL (generateCellTextMarker getLineCommentStart ac.cell) = 0 :=
    countNL_eq_zero_of_not_mem (marker_no_ctrl ac.cell).2
  have hA : ac.altText = generateCellTextMarker getLineCommentStart ac.cell ++ '\n' :: ac.code := by
    unfold AlternativeNotebookCellTextDocument.altText
    rw [hpfx, hsfx]
    simp [EOL]
  have hP : ac.prefixText.length =
      (generateCellTextMarker getLineCommentStart ac.cell).length + 1 := by
    rw [hpfx]
    simp [EOL]
  have hAlen : ac.altText.length =
      (generateCellTextMarker getLineCommentStart ac.cell).length + 1 + ac.code.length := by
    rw [hA]
    simp
    omega
  have hextra : ac.extraLines = 1 := by
    unfold AlternativeNotebookCellTextDocument.extraLines
    rw [hkind]
    rfl
  have hcA : countNL ac.altText = countNL ac.code + 1 := by
    rw [hA, countNL_append, hm0]
    rw [show countNL ('\n' :: ac.code) = countNL ac.code + 1 from rfl]
    omega
  have hcore_a := roundtrip_core (generateCellTextMarker getLineCommentStart ac.cell) ac.code
    hm0 a (by omega) (by omega)
  have hcore_b := roundtrip_core (generateCellTextMarker getLineCommentStart ac.cell) ac.code
    hm0 b (by omega) (by omega)
  have hsp : getPosition ac.altText a =
      ⟨(getPositionGo ac.code
          (a - ((generateCellTextMarker getLineCommentStart ac.cell).length + 1))).line + 1,
        (getPositionGo ac.code
          (a - ((generateCellTextMarker getLineCommentStart ac.cell).length + 1))).character⟩ := by
    rw [hA]
    exact hcore_a.1
  have hep : getPosition ac.altText b =
      ⟨(getPositionGo ac.code
          (b - ((generateCellTextMarker getLineCommentStart ac.cell).length + 1))).line + 1,
        (getPositionGo ac.code
          (b - ((generateCellTextMarker getLineCommentStart ac.cell).length + 1))).character⟩ := by
    rw [hA]
    exact hcore_b.1
  have hlinecount : ac.lineCount = countNL ac.code + 1 + 1 := by
    unfold AlternativeNotebookCellTextDocument.lineCount getLineCount
    omega
  have hlineb := getPositionGo_line_le ac.code
    (b - ((generateCellTextMarker getLineCommentStart ac.cell).length + 1))
  have hfrom : ac.fromAltOffsetRange ⟨a, b⟩ =
      ⟨⟨(getPositionGo ac.code
          (a - ((generateCellTextMarker getLineCommentStart ac.cell).length + 1))).line,
        (getPositionGo ac.code
          (a - ((generateCellTextMarker getLineCommentStart ac.cell).length + 1))).character⟩,
       ⟨(getPositionGo ac.code
          (b - ((generateCellTextMarker getLineCommentStart ac.cell).length + 1))).line,
        (getPositionGo ac.code
          (b - ((generateCellTextMarker getLineCommentStart ac.cell).length + 1))).character⟩⟩ := by
    unfold AlternativeNotebookCellTextDocument.fromAltOffsetRange
    simp only [hsp, hep, hextra, hlinecount]
    rw [if_neg (by omega)]
    simp
  rw [hfrom]
  unfold AlternativeNotebookCellTextDocument.toAltOffsetRange
  simp only [hextra]
  unfold getOffset
  rw [hA]
  simp only
  rw [hcore_a.2, hcore_b.2]

/-- Claim C3, counterexample: on a one-code-cell projection the range
`[0, 2)` lies within the single cell's span (which starts at flattened
offset 0), yet the round trip returns `[11, 13)`: `fromAltOffsetRange`
clamps the marker-line positions to host line 0 of the cell, and
`toAltOffsetRange` maps host line 0 back past the synthetic marker line. -/
theorem claim_c3_counterexample :
    (withoutMDCells [⟨0, NotebookCellKind.code, "ab\ncd".data⟩]).fromAltOffsetRange ⟨0, 2⟩ =
      some [(⟨0, NotebookCellKind.code, "ab\ncd".data⟩, ⟨⟨0, 0⟩, ⟨0, 2⟩⟩)] ∧
    (withoutMDCells [⟨0, NotebookCellKind.code, "ab\ncd".data⟩]).toAltOffsetRange
      ⟨0, NotebookCellKind.code, "ab\ncd".data⟩ [⟨⟨0, 0⟩, ⟨0, 2⟩⟩] = [⟨11, 13⟩] ∧
    ([(⟨11, 13⟩ : OffsetRange)] ≠ [(⟨0, 2⟩ : OffsetRange)]) := by
  refine ⟨by decide, by decide, by decide⟩

/-- Claim C3 (amended): for a well-formed projection and a flattened offset
range lying within a single cell's span at or after the end of its synthetic
marker line, the round trip recovers the range exactly and reports only that
cell. -/
theorem claim_c3_amended_roundtrip (d : AlternativeNotebookTextDocument)
    (pre post : List AltCellEntry) (e : AltCellEntry) (rs re : Nat)
    (hwf : docWF d = true) (hsplit : d.altCells = pre ++ e :: post)
    (ha : e.startOffset + e.altCell.prefixText.length ≤ rs)
    (hab : rs ≤ re)
    (hb : re ≤ e.startOffset + e.altCell.altText.length) :
    d.fromAltOffsetRange ⟨rs, re⟩ =
      some [(e.altCell.cell,
        e.altCell.fromAltOffsetRange ⟨rs - e.startOffset, re - e.startOffset⟩)] ∧
    d.toAltOffsetRange e.altCell.cell
      [e.altCell.fromAltOffsetRange ⟨rs - e.startOffset, re - e.startOffset⟩] = [⟨rs, re⟩] := by
  simp only [docWF, Bool.and_eq_true, decide_eq_true_eq] at hwf
  obtain ⟨⟨hchain, hnodup⟩, hall⟩ := hwf
  rw [hsplit] at hchain hnodup hall
  have hewf : cellDocWF e.altCell = true := List.all_eq_true.mp hall e (by simp)
  obtain ⟨hS, htail⟩ := indexChainFrom_decomp pre hchain
  rw [Nat.zero_add] at hS
  obtain ⟨-, -, hpostchain⟩ := indexChainFrom_cons htail
  have hpostmin := indexChainFrom_min hpostchain
  have hEOL : EOL.length = 1 := rfl
  have hfind : findLastIdx? (fun c => decide (c.startOffset ≤ rs)) (pre ++ e :: post) =
      some pre.length := by
    refine findLastIdx?_concat (by simp only [decide_eq_true_eq]; omega) ?_ pre
    intro x hx
    have := hpostmin x hx
    simp only [decide_eq_false_iff_not]
    omega
  have hdrop : (pre ++ e :: post).drop pre.length = e :: post := List.drop_left pre (e :: post)
  have hwalk : post.filterMap (fun e2 =>
      if e2.startOffset + e2.altCell.altText.length < re then
        some (e2.altCell.cell, e2.altCell.fromAltOffsetRange ⟨0, e2.altCell.altText.length⟩)
      else if e2.startOffset < re then
        some (e2.altCell.cell, e2.altCell.fromAltOffsetRange ⟨0, re - e2.startOffset⟩)
      else none) = [] := by
    rw [List.filterMap_eq_nil_iff]
    intro x hx
    have := hpostmin x hx
    rw [if_neg (by omega), if_neg (by omega)]
  have hrt : e.altCell.toAltOffsetRange
      (e.altCell.fromAltOffsetRange ⟨rs - e.startOffset, re - e.startOffset⟩) =
      ⟨rs - e.startOffset, re - e.startOffset⟩ :=
    cell_roundtrip e.altCell hewf _ _ (by omega) (by omega) (by omega)
  constructor
  · unfold fromAltOffsetRange
    rw [hsplit]
    simp only
    rw [hfind]
    simp only
    rw [hdrop]
    simp only
    rw [hwalk]
  · have hne : ∀ x ∈ pre, x.altCell.cell ≠ e.altCell.cell := by
      intro x hx hcell
      rw [List.map_append] at hnodup
      have hmem1 : x.altCell.cell.id ∈ pre.map (fun en => en.altCell.cell.id) :=
        List.mem_map_of_mem _ hx
      have hmem2 : x.altCell.cell.id ∈ (e :: post).map (fun en => en.altCell.cell.id) := by
        simp [hcell]
      exact (List.disjoint_of_nodup_append hnodup) hmem1 hmem2
    unfold toAltOffsetRange
    rw [hsplit, toAltOffsetRangeGo_skip _ _ _ pre 0 hne]
    rw [show toAltOffsetRangeGo e.altCell.cell
        [e.altCell.fromAltOffsetRange ⟨rs - e.startOffset, re - e.startOffset⟩]
        (e :: post) (0 + (pre.map entrySpan).sum) =
      (if e.altCell.cell = e.altCell.cell then
        [e.altCell.fromAltOffsetRange ⟨rs - e.startOffset, re - e.startOffset⟩].map (fun range =>
          let offsetRange := e.altCell.toAltOffsetRange range
          ⟨0 + (pre.map entrySpan).sum + offsetRange.start,
           0 + (pre.map entrySpan).sum + offsetRange.endExclusive⟩)
      else toAltOffsetRangeGo e.altCell.cell
        [e.altCell.fromAltOffsetRange ⟨rs - e.startOffset, re - e.startOffset⟩]
        post (0 + (pre.map entrySpan).sum + e.altCell.altText.length + EOL.length)) from rfl]
    rw [if_pos rfl]
    simp only [List.map_cons, List.map_nil, hrt]
    have h1 : 0 + (pre.map entrySpan).sum + (rs - e.startOffset) = rs := by omega
    have h2 : 0 + (pre.map entrySpan).sum + (re - e.startOffset) = re := by omega
    rw [h1, h2]

/-- Witness for the amended C3 on a concrete one-cell projection: the range
`[11, 15)` of the flattened text (inside the cell body, past the 11-character
marker line `"#%% cell 0\n"`) round-trips exactly. -/
theorem claim_c3_amended_roundtrip_witness :
    (withoutMDCells [⟨0, NotebookCellKind.code, "ab\ncd".data⟩]).fromAltOffsetRange ⟨11, 15⟩ =
      some [((⟨⟨0, NotebookCellKind.code, "ab\ncd".data⟩,
          getBlockComment, getLineCommentStart, "ab\ncd".data,
          ('#' :: "%% cell 0\n".data), []⟩ :
            AlternativeNotebookCellTextDocument).cell,
        (⟨⟨0, NotebookCellKind.code, "ab\ncd".data⟩,
          getBlockComment, getLineCommentStart, "ab\ncd".data,
          ('#' :: "%% cell 0\n".data), []⟩ :
            AlternativeNotebookCellTextDocument).fromAltOffsetRange ⟨11 - 0, 15 - 0⟩)] ∧
    (withoutMDCells [⟨0, NotebookCellKind.code, "ab\ncd".data⟩]).toAltOffsetRange
      ⟨0, NotebookCellKind.code, "ab\ncd".data⟩
      [(⟨⟨0, NotebookCellKind.code, "ab\ncd".data⟩,
          getBlockComment, getLineCommentStart, "ab\ncd".data,
          ('#' :: "%% cell 0\n".data), []⟩ :
            AlternativeNotebookCellTextDocument).fromAltOffsetRange ⟨11 - 0, 15 - 0⟩] =
      [⟨11, 15⟩] :=
  claim_c3_amended_roundtrip _ [] []
    ⟨⟨⟨0, NotebookCellKind.code, "ab\ncd".data⟩,
        getBlockComment, getLineCommentStart, "ab\ncd".data,
        ('#' :: "%% cell 0\n".data), []⟩, 0, 0⟩ 11 15
    (by decide) (by decide) (by decide) (by decide) (by decide)

/-- Witness for the amended C5 at a concrete mixed-EOL notebook. -/
theorem claim_c5_amended_no_crlf_witness :
    hasCRLF (withoutMDCells [⟨0, NotebookCellKind.code, "a\r\nb".data⟩,
      ⟨1, NotebookCellKind.code, "c\nd".data⟩]).getAltText = false :=
  claim_c5_amended_no_crlf _ (by decide)

/-- Witness for the amended C9 at concrete projections. -/
theorem claim_c9_amended_no_partial_results_witness :
    ((withoutMDCells [⟨0, NotebookCellKind.code, "ab".data⟩]).toAltOffsetRange
        ⟨7, NotebookCellKind.code, "zz".data⟩ [⟨⟨0, 0⟩, ⟨0, 1⟩⟩] = [] ∧
      (withoutMDCells [⟨0, NotebookCellKind.code, "ab".data⟩]).toAltRange
        ⟨7, NotebookCellKind.code, "zz".data⟩ [⟨⟨0, 0⟩, ⟨0, 1⟩⟩] = []) ∧
    (withoutMDCells []).fromAltOffsetRange ⟨2, 5⟩ = none :=
  ⟨claim_c9_amended_no_partial_results.1 _ _ _ (by decide),
   claim_c9_amended_no_partial_results.2 _ _ (by decide)⟩

/-! Arithmetic of the CRLF translator: counting monotonicity and bounds,
used to carry host raw offsets into the normalized text. -/

theorem not_pair_of_shape {c : Char} {rest : Text}
    (h : ∀ (r : List Char), c = '\r' → rest = '\n' :: r → False) :
    ¬(c = '\r' ∧ rest.head? = some '\n') := by
  rintro ⟨h1, h2⟩
  cases rest with
  | nil => simp at h2
  | cons d ds =>
    simp only [List.head?_cons, Option.some.injEq] at h2
    exact h ds h1 (by rw [h2])

theorem crlfCnt_le (t : Text) (o : Nat) : crlfCnt t o ≤ o := by
  induction t, o using crlfCnt.induct with
  | case1 t => rw [crlfCnt_zero]
  | case2 n => rw [crlfCnt_nil]; omega
  | case3 rest o ih =>
    rw [crlfCnt_pair]
    omega
  | case4 c rest o h ih =>
    rw [crlfCnt_cons_ne o (not_pair_of_shape h)]
    omega

theorem crlfCnt_add_le (t : Text) (o : Nat) : ∀ k, crlfCnt t (o + k) ≤ crlfCnt t o + k := by
  induction t, o using crlfCnt.induct with
  | case1 t =>
    intro k
    rw [Nat.zero_add]
    have := crlfCnt_le t k
    have h0 := crlfCnt_zero t
    omega
  | case2 n =>
    intro k
    rw [crlfCnt_nil, crlfCnt_nil]
    omega
  | case3 rest o ih =>
    intro k
    rw [show o + 1 + k = (o + k) + 1 by omega, crlfCnt_pair, crlfCnt_pair]
    rcases Nat.eq_zero_or_pos o with ho | ho
    · subst ho
      have h1 := crlfCnt_le rest (0 + k - 1)
      have h2 := crlfCnt_le rest (0 - 1)
      omega
    · rw [show o + k - 1 = (o - 1) + k by omega]
      have := ih k
      omega
  | case4 c rest o h ih =>
    intro k
    rw [show o + 1 + k = (o + k) + 1 by omega, crlfCnt_cons_ne _ (not_pair_of_shape h),
      crlfCnt_cons_ne _ (not_pair_of_shape h)]
    exact ih k

theorem crlfTranslate_mono (t : Text) {a b : Nat} (h : a ≤ b) :
    crlfTranslate t a ≤ crlfTranslate t b := by
  rw [crlfTranslate_eq_cnt, crlfTranslate_eq_cnt]
  have h1 := crlfCnt_add_le t a (b - a)
  rw [show a + (b - a) = b by omega] at h1
  have h2 := crlfCnt_le t a
  omega

theorem splitsPairAt_length (t : Text) : splitsPairAt t t.length = false := by
  induction t with
  | nil => exact splitsPairAt_zero []
  | cons c rest ih =>
    cases rest with
    | nil => exact splitsPairAt_single c 1
    | cons d ds =>
      rw [show (c :: d :: ds).length = ds.length + 2 by simp]
      rw [splitsPairAt_step]
      rw [show ds.length + 1 = (d :: ds).length by simp]
      exact ih

theorem normalizeEOL_length_cnt (t : Text) :
    (normalizeEOL t).length + crlfCnt t t.length = t.length := by
  have h := (crlfCnt_spec t t.length (Nat.le_refl _)).1 (splitsPairAt_length t)
  rwa [List.take_length] at h

theorem crlfTranslate_le_norm (t : Text) (o : Nat) (h : o ≤ t.length) :
    crlfTranslate t o ≤ (normalizeEOL t).length := by
  rw [crlfTranslate_eq_cnt]
  have h1 := crlfCnt_add_le t o (t.length - o)
  rw [show o + (t.length - o) = t.length by omega] at h1
  have h2 := normalizeEOL_length_cnt t
  have h3 := crlfCnt_le t o
  omega

/-! Correspondence between host raw-document offsets and positions and the
normalized-text offsets the translator produces, for raw texts without a
bare CR. -/

theorem rawFirstLineLen_le (t : Text) : rawFirstLineLen t ≤ t.length := by
  induction t with
  | nil => exact Nat.le_refl 0
  | cons c rest ih =>
    by_cases hr : c = '\r'
    · subst hr
      rw [show rawFirstLineLen ('\r' :: rest) = 0 from rfl]
      omega
    · by_cases hn : c = '\n'
      · subst hn
        rw [show rawFirstLineLen ('\n' :: rest) = 0 from rfl]
        omega
      · rw [show rawFirstLineLen (c :: rest) = rawFirstLineLen rest + 1 by
          simp [rawFirstLineLen, hr, hn]]
        simp only [List.length_cons]
        omega

theorem rawOffsetGo_le {l : Nat} : ∀ {t : Text} {c o : Nat},
    rawOffsetGo t l c = some o → o ≤ t.length := by
  induction l with
  | zero =>
    intro t c o h
    unfold rawOffsetGo at h
    by_cases hc : c ≤ rawFirstLineLen t
    · rw [if_pos hc] at h
      simp only [Option.some.injEq] at h
      have := rawFirstLineLen_le t
      omega
    · rw [if_neg hc] at h
      simp at h
  | succ l ih =>
    intro t c o h
    unfold rawOffsetGo at h
    cases hs : rawSplitFirst t with
    | none =>
      rw [hs] at h
      simp at h
    | some p =>
      rw [hs] at h
      simp only [Option.map_eq_some'] at h
      obtain ⟨o', ho', heq⟩ := h
      have h1 := ih ho'
      have h2 := rawSplitFirst_length_lt hs
      omega

theorem rawFirstLineLen_le_norm (t : Text) :
    rawFirstLineLen t ≤ firstLineLen (normalizeEOL t) := by
  induction t with
  | nil => exact Nat.le_refl 0
  | cons c rest ih =>
    by_cases hr : c = '\r'
    · subst hr
      rw [show rawFirstLineLen ('\r' :: rest) = 0 from rfl]
      omega
    · by_cases hn : c = '\n'
      · subst hn
        rw [show rawFirstLineLen ('\n' :: rest) = 0 from rfl]
        omega
      · rw [show rawFirstLineLen (c :: rest) = rawFirstLineLen rest + 1 by
          simp [rawFirstLineLen, hr, hn]]
        rw [normalizeEOL_cons_ne rest hr hn, firstLineLen_cons_ne _ hn]
        omega

theorem crlfCnt_le_first (t : Text) : ∀ c, c ≤ rawFirstLineLen t → crlfCnt t c = 0 := by
  induction t with
  | nil =>
    intro c _
    exact crlfCnt_nil c
  | cons x rest ih =>
    intro c hc
    cases c with
    | zero => exact crlfCnt_zero _
    | succ m =>
      by_cases hr : x = '\r'
      · subst hr
        rw [show rawFirstLineLen ('\r' :: rest) = 0 from rfl] at hc
        omega
      · by_cases hn : x = '\n'
        · subst hn
          rw [show rawFirstLineLen ('\n' :: rest) = 0 from rfl] at hc
          omega
        · rw [show rawFirstLineLen (x :: rest) = rawFirstLineLen rest + 1 by
            simp [rawFirstLineLen, hr, hn]] at hc
          rw [crlfCnt_cons_ne m (by rintro ⟨h1, -⟩; exact hr h1)]
          exact ih m (by omega)

theorem noBareCR_append_noBreak {f : Text} (x : Text) (hf : noBreak f = true) :
    noBareCR (f ++ x) = noBareCR x := by
  induction f with
  | nil => rfl
  | cons c cs ih =>
    obtain ⟨h1, h2, h3⟩ := noBreak_cons hf
    rw [List.cons_append, noBareCR_cons_ne _ h1, ih h3]

theorem noBareCR_cr {rest : Text} (h : noBareCR ('\r' :: rest) = true) :
    rest.head? = some '\n' := by
  cases rest with
  | nil => simp [noBareCR] at h
  | cons d ds =>
    by_cases hd : d = '\n'
    · simp [hd]
    · simp [noBareCR, hd] at h

theorem crlfCnt_append_noBreak {f : Text} (x : Text) (hf : noBreak f = true) :
    ∀ k, crlfCnt (f ++ x) (f.length + k) = crlfCnt x k := by
  induction f with
  | nil =>
    intro k
    simp
  | cons c cs ih =>
    intro k
    obtain ⟨h1, h2, h3⟩ := noBreak_cons hf
    rw [List.cons_append]
    rw [show (c :: cs).length + k = (cs.length + k) + 1 by simp only [List.length_cons]; omega]
    rw [crlfCnt_cons_ne _ (by rintro ⟨hh, -⟩; exact h1 hh)]
    exact ih h3 k

/-- A valid raw-document position maps through the normalized-text offset
walk to exactly the translated raw offset (no bare CR in the raw text). -/
theorem getOffsetGo_norm_of_rawOffset :
    ∀ (l : Nat) (raw : Text), noBareCR raw = true → ∀ (c o : Nat),
      rawOffsetGo raw l c = some o →
      getOffsetGo (normalizeEOL raw) l c = crlfTranslate raw o := by
  intro l
  induction l with
  | zero =>
    intro raw hnc c o h
    unfold rawOffsetGo at h
    by_cases hc : c ≤ rawFirstLineLen raw
    · rw [if_pos hc] at h
      simp only [Option.some.injEq] at h
      subst h
      rw [show getOffsetGo (normalizeEOL raw) 0 c =
        min c (firstLineLen (normalizeEOL raw)) from rfl]
      rw [crlfTranslate_eq_cnt, crlfCnt_le_first raw c hc]
      have := rawFirstLineLen_le_norm raw
      rw [Nat.min_eq_left (by omega)]
      omega
    · rw [if_neg hc] at h
      simp at h
  | succ l ih =>
    intro raw hnc c o h
    unfold rawOffsetGo at h
    cases hs : rawSplitFirst raw with
    | none =>
      rw [hs] at h
      simp at h
    | some p =>
      rw [hs] at h
      simp only [Option.map_eq_some'] at h
      obtain ⟨o', ho', heq⟩ := h
      obtain ⟨hnb, hcase⟩ := rawSplitFirst_decomp hs
      have hcnt0 : countNL p.1 = 0 := countNL_of_noBreak hnb
      have ho'le : o' ≤ p.2.length := rawOffsetGo_le ho'
      rcases hcase with hdec | hdec | hdec
      · have hrest : noBareCR p.2 = true := by
          rw [hdec, noBareCR_append_noBreak _ hnb] at hnc
          exact hnc
        have hnorm : normalizeEOL raw = p.1 ++ '\n' :: normalizeEOL p.2 := by
          rw [hdec, normalizeEOL_append_noBreak _ hnb]
          rfl
        have hlen : raw.length = p.1.length + 2 + p.2.length := by
          rw [hdec]
          simp only [List.length_append, List.length_cons]
          omega
        rw [hnorm, getOffsetGo_append _ hcnt0, ih p.2 hrest c o' ho']
        rw [crlfTranslate_eq_cnt, crlfTranslate_eq_cnt]
        have hcnt : crlfCnt raw o = 1 + crlfCnt p.2 o' := by
          rw [← heq, show raw.length - p.2.length = p.1.length + 2 by omega, hdec]
          rw [show o' + (p.1.length + 2) = p.1.length + (o' + 2) by omega]
          rw [crlfCnt_append_noBreak _ hnb]
          rw [show o' + 2 = (o' + 1) + 1 by omega, crlfCnt_pair]
          simp
        have hcle := crlfCnt_le p.2 o'
        omega
      · exfalso
        rw [hdec.1, noBareCR_append_noBreak _ hnb] at hnc
        exact hdec.2 (noBareCR_cr hnc)
      · have hrest : noBareCR p.2 = true := by
          rw [hdec, noBareCR_append_noBreak _ hnb] at hnc
          rwa [noBareCR_cons_ne _ (by decide)] at hnc
        have hnorm : normalizeEOL raw = p.1 ++ '\n' :: normalizeEOL p.2 := by
          rw [hdec, normalizeEOL_append_noBreak _ hnb]
          rfl
        have hlen : raw.length = p.1.length + 1 + p.2.length := by
          rw [hdec]
          simp only [List.length_append, List.length_cons]
          omega
        rw [hnorm, getOffsetGo_append _ hcnt0, ih p.2 hrest c o' ho']
        rw [crlfTranslate_eq_cnt, crlfTranslate_eq_cnt]
        have hcnt : crlfCnt raw o = crlfCnt p.2 o' := by
          rw [← heq, show raw.length - p.2.length = p.1.length + 1 by omega, hdec]
          rw [show o' + (p.1.length + 1) = p.1.length + (o' + 1) by omega]
          rw [crlfCnt_append_noBreak _ hnb]
          rw [crlfCnt_cons_ne _ (by rintro ⟨hh, -⟩; exact absurd hh (by decide))]
        have hcle := crlfCnt_le p.2 o'
        omega

/-! Localization of a `StringEdit` application: replacements chained inside
a window of the text act only there. -/

/-- A replacement with both span endpoints shifted up by `m`. -/
def shiftRep (m : Nat) (r : StringReplacement) : StringReplacement :=
  ⟨⟨r.span.start + m, r.span.endExclusive + m⟩, r.newText⟩

/-- The replacements are ascending and non-overlapping, starting at or after
`pos` and ending at or before `hi`. -/
def repsChain : Nat → Nat → List StringReplacement → Prop
  | _, _, [] => True
  | pos, hi, r :: rs =>
    pos ≤ r.span.start ∧ r.span.start ≤ r.span.endExclusive ∧
      r.span.endExclusive ≤ hi ∧ repsChain r.span.endExclusive hi rs

theorem applyReps_shift_append (reps : List StringReplacement) :
    ∀ (pos hi m : Nat) (X B : Text), repsChain pos hi reps → hi ≤ pos + X.length →
      applyReps (reps.map (shiftRep m)) (pos + m) (X ++ B) = applyReps reps pos X ++ B := by
  induction reps with
  | nil =>
    intro pos hi m X B _ _
    rfl
  | cons r rs ih =>
    intro pos hi m X B hchain hhi
    obtain ⟨hc1, hc2, hc3, hc4⟩ := hchain
    rw [List.map_cons]
    rw [show applyReps (shiftRep m r :: rs.map (shiftRep m)) (pos + m) (X ++ B) =
      (X ++ B).take ((shiftRep m r).span.start - (pos + m)) ++ (shiftRep m r).newText ++
        applyReps (rs.map (shiftRep m)) (shiftRep m r).span.endExclusive
          ((X ++ B).drop ((shiftRep m r).span.endExclusive - (pos + m))) from rfl]
    rw [show applyReps (r :: rs) pos X =
      X.take (r.span.start - pos) ++ r.newText ++
        applyReps rs r.span.endExclusive (X.drop (r.span.endExclusive - pos)) from rfl]
    have hstart : (shiftRep m r).span.start - (pos + m) = r.span.start - pos := by
      simp only [shiftRep]
      omega
    have hend : (shiftRep m r).span.endExclusive - (pos + m) = r.span.endExclusive - pos := by
      simp only [shiftRep]
      omega
    rw [hstart, hend]
    rw [List.take_append_eq_append_take,
      show X.take (r.span.start - pos) ++ B.take (r.span.start - pos - X.length) =
        X.take (r.span.start - pos) by
          rw [show r.span.start - pos - X.length = 0 by omega, List.take_zero, List.append_nil]]
    rw [List.drop_append_eq_append_drop,
      show r.span.endExclusive - pos - X.length = 0 by omega, List.drop_zero]
    have hrec := ih r.span.endExclusive hi m (X.drop (r.span.endExclusive - pos)) B hc4
      (by simp only [List.length_drop]; omega)
    rw [show (shiftRep m r).span.endExclusive = r.span.endExclusive + m from rfl] at *
    rw [hrec]
    simp [shiftRep, List.append_assoc]

theorem applyReps_passthrough (reps : List StringReplacement) (pos : Nat) (A t : Text)
    (h : ∀ r ∈ reps, pos + A.length ≤ r.span.start ∧ pos + A.length ≤ r.span.endExclusive) :
    applyReps reps pos (A ++ t) = A ++ applyReps reps (pos + A.length) t := by
  cases reps with
  | nil => rfl
  | cons r rs =>
    obtain ⟨hs, he⟩ := h r (by simp)
    rw [show applyReps (r :: rs) pos (A ++ t) =
      (A ++ t).take (r.span.start - pos) ++ r.newText ++
        applyReps rs r.span.endExclusive ((A ++ t).drop (r.span.endExclusive - pos)) from rfl]
    rw [show applyReps (r :: rs) (pos + A.length) t =
      t.take (r.span.start - (pos + A.length)) ++ r.newText ++
        applyReps rs r.span.endExclusive
          (t.drop (r.span.endExclusive - (pos + A.length))) from rfl]
    rw [List.take_append_eq_append_take,
      show A.take (r.span.start - pos) = A from List.take_of_length_le (by omega)]
    rw [List.drop_append_eq_append_drop,
      show A.drop (r.span.endExclusive - pos) = [] from List.drop_eq_nil_of_le (by omega)]
    rw [show r.span.start - pos - A.length = r.span.start - (pos + A.length) by omega]
    rw [show r.span.endExclusive - pos - A.length =
      r.span.endExclusive - (pos + A.length) by omega]
    simp [List.append_assoc]

/-! Host content-change event batches: well-formed events carry the offset
form of their own range, and batches arrive ordered from the end of the
document to the beginning. -/

/-- A host event is well formed when its `rangeOffset`/`rangeLength` are the
raw-document offsets of its `range`. -/
def eventWF (raw : Text) (ev : TextDocumentContentChangeEvent) : Bool :=
  rawOffsetOfPos raw ev.range.start = some ev.rangeOffset &&
  rawOffsetOfPos raw ev.range.endPos = some (ev.rangeOffset + ev.rangeLength)

/-- The host reports batched changes from the end of the document to the
beginning: each event's range lies entirely after the end of the next one. -/
def eventsDescending : List TextDocumentContentChangeEvent → Bool
  | [] => true
  | [_] => true
  | a :: b :: rest =>
    (b.rangeOffset + b.rangeLength ≤ a.rangeOffset) && eventsDescending (b :: rest)

/-- The translated replacement of one host event, in the normalized cell
code's coordinates. -/
def cellRepOfEvent (raw : Text) (ev : TextDocumentContentChangeEvent) : StringReplacement :=
  ⟨⟨crlfTranslate raw ev.rangeOffset, crlfTranslate raw (ev.rangeOffset + ev.rangeLength)⟩,
   normalizeEOL ev.text⟩

theorem eventsDescending_chain {es : List TextDocumentContentChangeEvent}
    (h : eventsDescending es = true) :
    List.Chain' (fun a b => b.rangeOffset + b.rangeLength ≤ a.rangeOffset) es := by
  induction es with
  | nil => exact List.chain'_nil
  | cons a tail ih =>
    cases tail with
    | nil => simp
    | cons b rest =>
      rw [show eventsDescending (a :: b :: rest) =
        ((b.rangeOffset + b.rangeLength ≤ a.rangeOffset : Bool) &&
          eventsDescending (b :: rest)) from rfl] at h
      simp only [Bool.and_eq_true, decide_eq_true_eq] at h
      exact List.chain'_cons.mpr ⟨h.1, ih h.2⟩

theorem repsChain_build (raw : Text) :
    ∀ (evs : List TextDocumentContentChangeEvent) (pos : Nat),
      (∀ ev ∈ evs, eventWF raw ev = true) →
      List.Chain' (fun a b => a.rangeOffset + a.rangeLength ≤ b.rangeOffset) evs →
      (∀ ev, evs.head? = some ev → pos ≤ crlfTranslate raw ev.rangeOffset) →
      repsChain pos (normalizeEOL raw).length (evs.map (cellRepOfEvent raw)) := by
  intro evs
  induction evs with
  | nil =>
    intro pos _ _ _
    exact trivial
  | cons a rest ih =>
    intro pos hwf hch hhead
    have hawf := hwf a (by simp)
    simp only [eventWF, Bool.and_eq_true, decide_eq_true_eq] at hawf
    have hbound : a.rangeOffset + a.rangeLength ≤ raw.length := rawOffsetGo_le hawf.2
    refine ⟨hhead a rfl, crlfTranslate_mono raw (by omega), ?_, ?_⟩
    · exact crlfTranslate_le_norm raw _ hbound
    · refine ih (crlfTranslate raw (a.rangeOffset + a.rangeLength))
        (fun ev hev => hwf ev (by simp [hev])) ?_ ?_
      · cases rest with
        | nil => exact List.chain'_nil
        | cons b rest' => exact (List.chain'_cons.mp hch).2
      · intro ev hev
        cases rest with
        | nil => simp at hev
        | cons b rest' =>
          simp only [List.head?_cons, Option.some.injEq] at hev
          subst hev
          exact crlfTranslate_mono raw (List.chain'_cons.mp hch).1

/-- The per-cell range-to-offset translation of a well-formed host range:
both endpoints land at the prefix length plus the translated raw offset. -/
theorem toAltOffsetRange_correspond (ac : AlternativeNotebookCellTextDocument)
    (hwf : cellDocWF ac = true) (hnc : noBareCR ac.cell.rawText = true)
    (r : VSRange) (o1 o2 : Nat)
    (h1 : rawOffsetOfPos ac.cell.rawText r.start = some o1)
    (h2 : rawOffsetOfPos ac.cell.rawText r.endPos = some o2) :
    ac.toAltOffsetRange r =
      ⟨ac.prefixText.length + crlfTranslate ac.cell.rawText o1,
       ac.prefixText.length + crlfTranslate ac.cell.rawText o2⟩ := by
  simp only [cellDocWF, Bool.and_eq_true, decide_eq_true_eq] at hwf
  obtain ⟨⟨⟨hkind, hpfx⟩, hsfx⟩, hcode⟩ := hwf
  have hm0 : countNL (generateCellTextMarker getLineCommentStart ac.cell) = 0 :=
    countNL_eq_zero_of_not_mem (marker_no_ctrl ac.cell).2
  have hA : ac.altText = generateCellTextMarker getLineCommentStart ac.cell ++ '\n' :: ac.code := by
    unfold AlternativeNotebookCellTextDocument.altText
    rw [hpfx, hsfx]
    simp [EOL]
  have hP : ac.prefixText.length =
      (generateCellTextMarker getLineCommentStart ac.cell).length + 1 := by
    rw [hpfx]
    simp [EOL]
  have hextra : ac.extraLines = 1 := by
    unfold AlternativeNotebookCellTextDocument.extraLines
    rw [hkind]
    rfl
  unfold AlternativeNotebookCellTextDocument.toAltOffsetRange
  rw [hextra, hA]
  unfold getOffset
  simp only
  rw [getOffsetGo_append _ hm0, getOffsetGo_append _ hm0, hcode]
  unfold rawOffsetOfPos at h1 h2
  rw [getOffsetGo_norm_of_rawOffset _ _ hnc _ _ h1,
    getOffsetGo_norm_of_rawOffset _ _ hnc _ _ h2, hP]

/-! Splitting the flattened notebook text around one cell. -/

/-- Flattened text of the cells before a given one, each with its trailing
separator. -/
def joinPre : List Text → Text
  | [] => []
  | t :: ts => t ++ '\n' :: joinPre ts

/-- Flattened text of the cells after a given one, each with its leading
separator. -/
def joinPost : List Text → Text
  | [] => []
  | t :: ts => '\n' :: joinEOL (t :: ts)

theorem joinEOL_cons_of_ne {t : Text} {ts : List Text} (h : ts ≠ []) :
    joinEOL (t :: ts) = t ++ '\n' :: joinEOL ts := by
  cases ts with
  | nil => exact absurd rfl h
  | cons u us => rfl

theorem joinEOL_split (x : Text) (bs : List Text) :
    ∀ as, joinEOL (as ++ x :: bs) = joinPre as ++ x ++ joinPost bs := by
  intro as
  induction as with
  | nil =>
    cases bs with
    | nil => simp [joinEOL, joinPre, joinPost]
    | cons b bs' =>
      rw [List.nil_append, joinEOL_cons_of_ne (by simp)]
      simp [joinPre, joinPost]
  | cons a as' ih =>
    rw [List.cons_append, joinEOL_cons_of_ne (by simp), ih]
    simp [joinPre, List.append_assoc]

theorem joinPre_length (as : List Text) :
    (joinPre as).length = (as.map (fun t => t.length + 1)).sum := by
  induction as with
  | nil => rfl
  | cons a as' ih =>
    simp only [joinPre, List.map_cons, List.sum_cons, List.length_append, List.length_cons, ih]
    omega

theorem find?_first {α : Type} (p : α → Bool) (e : α) (post : List α) :
    ∀ pre : List α, (∀ x ∈ pre, p x = false) → p e = true →
      (pre ++ e :: post).find? p = some e := by
  intro pre
  induction pre with
  | nil =>
    intro _ hp
    rw [List.nil_append, List.find?_cons, hp]
  | cons a pre' ih =>
    intro hpre hp
    rw [List.cons_append, List.find?_cons, hpre a (by simp)]
    exact ih (fun x hx => hpre x (by simp [hx])) hp

theorem filterMap_eq_map_of_some {α β : Type} {f : α → Option β} {g : α → β} :
    ∀ {l : List α}, (∀ a ∈ l, f a = some (g a)) → l.filterMap f = l.map g := by
  intro l
  induction l with
  | nil => intro _; rfl
  | cons a l' ih =>
    intro h
    rw [List.filterMap_cons, h a (by simp), List.map_cons, ih (fun x hx => h x (by simp [hx]))]

theorem toAltRangeGo_skip (cell : NotebookCell) (ranges : List VSRange)
    (rest : List AltCellEntry) :
    ∀ pre : List AltCellEntry, (∀ x ∈ pre, x.altCell.cell ≠ cell) →
      toAltRangeGo cell ranges (pre ++ rest) = toAltRangeGo cell ranges rest := by
  intro pre
  induction pre with
  | nil => intro _; rfl
  | cons a pre' ih =>
    intro h
    rw [List.cons_append]
    rw [show toAltRangeGo cell ranges (a :: (pre' ++ rest)) =
      (if a.altCell.cell = cell then
        ranges.map (fun range =>
          let altCellRange := a.altCell.toAltRange range
          ⟨⟨altCellRange.start.line + a.startLine, altCellRange.start.character⟩,
           ⟨altCellRange.endPos.line + a.startLine, altCellRange.endPos.character⟩⟩)
      else toAltRangeGo cell ranges (pre' ++ rest)) from rfl]
    rw [if_neg (h a (by simp))]
    exact ih (fun x hx => h x (by simp [hx]))

/-- The single `StringEdit` built from a cell's normalized events: one
translated replacement per event, in reversed (ascending) order. -/
theorem normalizeEdits_reps (ac : AlternativeNotebookCellTextDocument)
    (es : List TextDocumentContentChangeEvent) :
    (stringEditFromTextContentChange (ac.normalizeEdits es)).replacements
      = (es.map (cellRepOfEvent ac.cell.rawText)).reverse := by
  unfold stringEditFromTextContentChange AlternativeNotebookCellTextDocument.normalizeEdits
  rw [List.map_map]
  simp only [StringEdit.mk.injEq]
  congr 1
  apply List.map_congr_left
  intro ev _
  have hmono := crlfTranslate_mono ac.cell.rawText
    (Nat.le_add_right ev.rangeOffset ev.rangeLength)
  simp only [Function.comp_apply, cellRepOfEvent, StringReplacement.mk.injEq,
    OffsetRange.mk.injEq]
  refine ⟨⟨?_, ?_⟩, ?_⟩ <;> first | trivial | omega

/-- Translation of a well-formed event batch of one projected cell into
flattened coordinates: every event resolves, and its offsets are the cell's
flattened start plus the translated raw offsets. -/
theorem toAltCellEvents_map (d : AlternativeNotebookTextDocument)
    (pre post : List AltCellEntry) (e : AltCellEntry)
    (hsplit : d.altCells = pre ++ e :: post)
    (hpreid : ∀ x ∈ pre, x.altCell.cell.id ≠ e.altCell.cell.id)
    (hnc : noBareCR e.altCell.cell.rawText = true)
    (hewf : cellDocWF e.altCell = true)
    (es : List TextDocumentContentChangeEvent)
    (hevwf : ∀ ev ∈ es, eventWF e.altCell.cell.rawText ev = true) :
    d.toAltCellTextDocumentContentChangeEvents e.altCell.cell.id es =
      es.map (fun ev =>
        ⟨⟨⟨(e.altCell.toAltRange ev.range).start.line + e.startLine,
            (e.altCell.toAltRange ev.range).start.character⟩,
          ⟨(e.altCell.toAltRange ev.range).endPos.line + e.startLine,
            (e.altCell.toAltRange ev.range).endPos.character⟩⟩,
         (pre.map entrySpan).sum + (e.altCell.prefixText.length +
           crlfTranslate e.altCell.cell.rawText ev.rangeOffset),
         ((pre.map entrySpan).sum + (e.altCell.prefixText.length +
           crlfTranslate e.altCell.cell.rawText (ev.rangeOffset + ev.rangeLength))) -
           ((pre.map entrySpan).sum + (e.altCell.prefixText.length +
             crlfTranslate e.altCell.cell.rawText ev.rangeOffset)),
         normalizeEOL ev.text⟩) := by
  unfold toAltCellTextDocumentContentChangeEvents
  apply filterMap_eq_map_of_some
  intro ev hev
  have hewv := hevwf ev hev
  simp only [eventWF, Bool.and_eq_true, decide_eq_true_eq] at hewv
  have hgc : d.getCell e.altCell.cell.id = some e.altCell.cell := by
    unfold getCell
    rw [hsplit, find?_first _ e post pre
      (fun x hx => by simpa using hpreid x hx) (by simp)]
    rfl
  have hprecell : ∀ x ∈ pre, x.altCell.cell ≠ e.altCell.cell := by
    intro x hx hcc
    exact hpreid x hx (by rw [hcc])
  have hcorr := toAltOffsetRange_correspond e.altCell hewf hnc ev.range _ _ hewv.1 hewv.2
  have hr : d.toAltRange e.altCell.cell [ev.range] =
      [⟨⟨(e.altCell.toAltRange ev.range).start.line + e.startLine,
          (e.altCell.toAltRange ev.range).start.character⟩,
        ⟨(e.altCell.toAltRange ev.range).endPos.line + e.startLine,
          (e.altCell.toAltRange ev.range).endPos.character⟩⟩] := by
    unfold toAltRange
    rw [hsplit, toAltRangeGo_skip _ _ _ pre hprecell]
    rw [show toAltRangeGo e.altCell.cell [ev.range] (e :: post) =
      (if e.altCell.cell = e.altCell.cell then
        [ev.range].map (fun range =>
          let altCellRange := e.altCell.toAltRange range
          ⟨⟨altCellRange.start.line + e.startLine, altCellRange.start.character⟩,
           ⟨altCellRange.endPos.line + e.startLine, altCellRange.endPos.character⟩⟩)
      else toAltRangeGo e.altCell.cell [ev.range] post) from rfl, if_pos rfl]
    rfl
  have ho : d.toAltOffsetRange e.altCell.cell [ev.range] =
      [⟨(pre.map entrySpan).sum + (e.altCell.prefixText.length +
          crlfTranslate e.altCell.cell.rawText ev.rangeOffset),
        (pre.map entrySpan).sum + (e.altCell.prefixText.length +
          crlfTranslate e.altCell.cell.rawText (ev.rangeOffset + ev.rangeLength))⟩] := by
    unfold toAltOffsetRange
    rw [hsplit, toAltOffsetRangeGo_skip _ _ _ pre 0 hprecell]
    rw [show toAltOffsetRangeGo e.altCell.cell [ev.range] (e :: post)
        (0 + (pre.map entrySpan).sum) =
      (if e.altCell.cell = e.altCell.cell then
        [ev.range].map (fun range =>
          let offsetRange := e.altCell.toAltOffsetRange range
          ⟨0 + (pre.map entrySpan).sum + offsetRange.start,
           0 + (pre.map entrySpan).sum + offsetRange.endExclusive⟩)
      else toAltOffsetRangeGo e.altCell.cell [ev.range] post
        (0 + (pre.map entrySpan).sum + e.altCell.altText.length + EOL.length)) from rfl,
      if_pos rfl]
    simp only [List.map_cons, List.map_nil, hcorr, Nat.zero_add, List.cons.injEq,
      OffsetRange.mk.injEq, and_true]
  rw [hgc]
  dsimp only
  rw [hr, ho]

theorem altText_map_cellsBuilder (cs : List AlternativeNotebookCellTextDocument) :
    (cellsBuilder cs).map (fun c => c.altCell.altText) = cs.map (fun c => c.altText) := by
  rw [show (fun (c : AltCellEntry) => c.altCell.altText) =
    ((fun x : AlternativeNotebookCellTextDocument => x.altText) ∘ (fun c => c.altCell))
      from rfl]
  rw [← List.map_map, cellsBuilder_map_altCell]

/-- The projection returned by `withCellChanges` for a known cell: the
owning cell's document gets the edit, all others are kept, and the index is
rebuilt. -/
theorem withCellChanges_altCells (d : AlternativeNotebookTextDocument)
    (pre post : List AltCellEntry) (e : AltCellEntry)
    (hsplit : d.altCells = pre ++ e :: post)
    (hpreid : ∀ x ∈ pre, x.altCell.cell.id ≠ e.altCell.cell.id)
    (hpostid : ∀ x ∈ post, x.altCell.cell.id ≠ e.altCell.cell.id)
    (es : List TextDocumentContentChangeEvent) (hes : es ≠ []) :
    (d.withCellChanges e.altCell.cell.id (CellEditArg.events es)).altCells =
      cellsBuilder (pre.map (fun c => c.altCell) ++
        e.altCell.withTextEdit (stringEditFromTextContentChange
          (e.altCell.normalizeEdits es)) :: post.map (fun c => c.altCell)) := by
  unfold withCellChanges
  rw [if_neg (by
    cases es with
    | nil => exact absurd rfl hes
    | cons a l => simp)]
  rw [hsplit, find?_first _ e post pre
    (fun x hx => by simpa using hpreid x hx) (by simp)]
  dsimp only
  congr 1
  rw [List.map_append, List.map_cons]
  congr 1
  · apply List.map_congr_left
    intro x hx
    rw [if_neg (by simpa using hpreid x hx)]
  · congr 1
    · rw [if_pos rfl]
    · apply List.map_congr_left
      intro x hx
      rw [if_neg (by simpa using hpostid x hx)]

/-- Claim C1 (amended): for a well-formed projection, a cell of the
projection whose raw text has no bare CR, and a non-empty well-formed host
event batch for that cell (offsets agreeing with ranges, reported from the
end of the document to the beginning), `withCellChangesAndEdit` returns the
flattened edit, and applying it to the old `getAltText()` yields exactly the
new projection's `getAltText()`. -/
theorem claim_c1_amended_edit_equivalence (d : AlternativeNotebookTextDocument)
    (pre post : List AltCellEntry) (e : AltCellEntry)
    (es : List TextDocumentContentChangeEvent)
    (hwf : docWF d = true) (hsplit : d.altCells = pre ++ e :: post)
    (hnc : noBareCR e.altCell.cell.rawText = true)
    (hes : es ≠ [])
    (hevwf : ∀ ev ∈ es, eventWF e.altCell.cell.rawText ev = true)
    (hdesc : eventsDescending es = true) :
    (d.withCellChangesAndEdit e.altCell.cell.id es).2 =
      some (d.editFromNotebookCellTextDocumentContentChangeEvents e.altCell.cell.id es) ∧
    (d.editFromNotebookCellTextDocumentContentChangeEvents
        e.altCell.cell.id es).apply d.getAltText =
      (d.withCellChangesAndEdit e.altCell.cell.id es).1.getAltText := by
  simp only [docWF, Bool.and_eq_true, decide_eq_true_eq] at hwf
  obtain ⟨⟨hchain, hnodup⟩, hall⟩ := hwf
  rw [hsplit] at hnodup hall
  rw [List.map_append, List.map_cons] at hnodup
  have hewf : cellDocWF e.altCell = true := List.all_eq_true.mp hall e (by simp)
  have hpreid : ∀ x ∈ pre, x.altCell.cell.id ≠ e.altCell.cell.id := by
    intro x hx hcc
    have hmem1 : x.altCell.cell.id ∈ pre.map (fun en => en.altCell.cell.id) :=
      List.mem_map_of_mem _ hx
    have hmem2 : x.altCell.cell.id ∈
        e.altCell.cell.id :: post.map (fun en => en.altCell.cell.id) := by
      simp [hcc]
    exact (List.disjoint_of_nodup_append hnodup) hmem1 hmem2
  have hpostid : ∀ x ∈ post, x.altCell.cell.id ≠ e.altCell.cell.id := by
    intro x hx hcc
    have hn2 := List.Nodup.of_append_right hnodup
    have hni := (List.nodup_cons.mp hn2).1
    exact hni (by
      rw [← hcc]
      exact List.mem_map_of_mem _ hx)
  have hlen0 : ¬(es.length = 0) := fun h0 => hes (List.length_eq_zero.mp h0)
  simp only [cellDocWF, Bool.and_eq_true, decide_eq_true_eq] at hewf
  obtain ⟨⟨⟨hkind, hpfx⟩, hsfx⟩, hcode⟩ := hewf
  have hewf' : cellDocWF e.altCell = true := by
    simp only [cellDocWF, Bool.and_eq_true, decide_eq_true_eq]
    exact ⟨⟨⟨hkind, hpfx⟩, hsfx⟩, hcode⟩
  have hA : e.altCell.altText =
      generateCellTextMarker getLineCommentStart e.altCell.cell ++ '\n' :: e.altCell.code := by
    unfold AlternativeNotebookCellTextDocument.altText
    rw [hpfx, hsfx]
    simp [EOL]
  have hP : e.altCell.prefixText.length =
      (generateCellTextMarker getLineCommentStart e.altCell.cell).length + 1 := by
    rw [hpfx]
    simp [EOL]
  have hold : d.getAltText =
      (joinPre (pre.map (fun c => c.altCell.altText)) ++
        (generateCellTextMarker getLineCommentStart e.altCell.cell ++ ['\n'])) ++
      (e.altCell.code ++ joinPost (post.map (fun c => c.altCell.altText))) := by
    unfold AlternativeNotebookTextDocument.getAltText AlternativeNotebookTextDocument.altText
    rw [hsplit, List.map_append, List.map_cons, joinEOL_split, hA]
    simp [List.append_assoc]
  have hnew : (d.withCellChanges e.altCell.cell.id (CellEditArg.events es)).getAltText =
      (joinPre (pre.map (fun c => c.altCell.altText)) ++
        (generateCellTextMarker getLineCommentStart e.altCell.cell ++ ['\n'])) ++
      ((stringEditFromTextContentChange (e.altCell.normalizeEdits es)).apply e.altCell.code ++
        joinPost (post.map (fun c => c.altCell.altText))) := by
    unfold AlternativeNotebookTextDocument.getAltText AlternativeNotebookTextDocument.altText
    rw [withCellChanges_altCells d pre post e hsplit hpreid hpostid es hes]
    rw [altText_map_cellsBuilder, List.map_append, List.map_cons]
    rw [show (e.altCell.withTextEdit (stringEditFromTextContentChange
        (e.altCell.normalizeEdits es))).altText =
      generateCellTextMarker getLineCommentStart e.altCell.cell ++ '\n' ::
        (stringEditFromTextContentChange (e.altCell.normalizeEdits es)).apply e.altCell.code by
      unfold AlternativeNotebookCellTextDocument.altText
        AlternativeNotebookCellTextDocument.withTextEdit
      simp only
      rw [hpfx, hsfx]
      simp [EOL]]
    rw [joinEOL_split, List.map_map, List.map_map]
    simp [List.append_assoc, Function.comp_def]
  have hflatmap := toAltCellEvents_map d pre post e hsplit hpreid hnc hewf' es hevwf
  have hedit := normalizeEdits_reps e.altCell es
  have hflatreps : (d.editFromNotebookCellTextDocumentContentChangeEvents
        e.altCell.cell.id es).replacements =
      ((es.map (cellRepOfEvent e.altCell.cell.rawText)).reverse).map
        (shiftRep ((pre.map entrySpan).sum + e.altCell.prefixText.length)) := by
    unfold editFromNotebookCellTextDocumentContentChangeEvents stringEditFromTextContentChange
    dsimp only
    rw [hflatmap, List.map_map, List.map_reverse, List.map_map]
    congr 1
    apply List.map_congr_left
    intro ev _
    have hmono := crlfTranslate_mono e.altCell.cell.rawText
      (Nat.le_add_right ev.rangeOffset ev.rangeLength)
    simp only [Function.comp_apply, cellRepOfEvent, shiftRep, StringReplacement.mk.injEq,
      OffsetRange.mk.injEq]
    refine ⟨⟨?_, ?_⟩, ?_⟩ <;> first | trivial | omega
  have hchainreps : repsChain 0 e.altCell.code.length
      ((es.map (cellRepOfEvent e.altCell.cell.rawText)).reverse) := by
    have hb := repsChain_build e.altCell.cell.rawText es.reverse 0
      (fun ev hev => hevwf ev (List.mem_reverse.mp hev))
      (List.chain'_reverse.mpr (eventsDescending_chain hdesc))
      (fun ev _ => Nat.zero_le _)
    rw [List.map_reverse] at hb
    rw [hcode]
    exact hb
  have hAlen : (joinPre (pre.map (fun c => c.altCell.altText)) ++
      (generateCellTextMarker getLineCommentStart e.altCell.cell ++ ['\n'])).length =
      (pre.map entrySpan).sum + e.altCell.prefixText.length := by
    simp only [List.length_append, joinPre_length, List.map_map, List.length_cons,
      List.length_nil]
    rw [show pre.map ((fun t => t.length + 1) ∘ (fun c => c.altCell.altText)) =
      pre.map entrySpan from rfl]
    omega
  constructor
  · unfold withCellChangesAndEdit
    rw [if_neg hlen0]
  · have h1 : (d.withCellChangesAndEdit e.altCell.cell.id es).1 =
        d.withCellChanges e.altCell.cell.id (CellEditArg.events es) := by
      unfold withCellChangesAndEdit
      rw [if_neg hlen0]
    rw [h1, hold, hnew]
    unfold StringEdit.apply
    rw [hflatreps]
    rw [applyReps_passthrough _ 0 _ _ (by
      intro r hr
      obtain ⟨c, -, rfl⟩ := List.mem_map.mp hr
      simp only [shiftRep, hAlen]
      omega)]
    rw [hAlen]
    rw [applyReps_shift_append _ 0 e.altCell.code.length _ _ _ hchainreps (by omega)]
    rw [hedit]

/-- Claim C1, counterexample: a well-formed host event on a cell whose raw
text holds a bare CR ("a\rb": the host sees two lines, the normalized
projection one).  The event replaces the second raw line's "b" by "c"; the
new projection's text ends in "a\rc", but the returned edit applied to the
old flattened text yields "c\rb" there: the ranges are translated against
the normalized text, where line 1 no longer exists. -/
theorem claim_c1_counterexample :
    eventWF "a\rb".data ⟨⟨⟨1, 0⟩, ⟨1, 1⟩⟩, 2, 1, ['c']⟩ = true ∧
    eventsDescending [⟨⟨⟨1, 0⟩, ⟨1, 1⟩⟩, 2, 1, ['c']⟩] = true ∧
    ((withoutMDCells [⟨0, NotebookCellKind.code, "a\rb".data⟩]).withCellChangesAndEdit 0
        [⟨⟨⟨1, 0⟩, ⟨1, 1⟩⟩, 2, 1, ['c']⟩]).2.map
      (fun ed => ed.apply
        (withoutMDCells [⟨0, NotebookCellKind.code, "a\rb".data⟩]).getAltText) ≠
      some ((withoutMDCells [⟨0, NotebookCellKind.code, "a\rb".data⟩]).withCellChangesAndEdit 0
        [⟨⟨⟨1, 0⟩, ⟨1, 1⟩⟩, 2, 1, ['c']⟩]).1.getAltText := by
  refine ⟨by decide, by decide, by decide⟩

/-- Witness for the amended C1 on a concrete one-cell projection and one
well-formed event replacing "b" by "X" in cell text "ab\ncd". -/
theorem claim_c1_amended_edit_equivalence_witness :
    ((withoutMDCells [⟨0, NotebookCellKind.code, "ab\ncd".data⟩]).withCellChangesAndEdit 0
        [⟨⟨⟨0, 1⟩, ⟨0, 2⟩⟩, 1, 1, ['X']⟩]).2 =
      some ((withoutMDCells [⟨0, NotebookCellKind.code, "ab\ncd".data⟩]).editFromNotebookCellTextDocumentContentChangeEvents
        0 [⟨⟨⟨0, 1⟩, ⟨0, 2⟩⟩, 1, 1, ['X']⟩]) ∧
    ((withoutMDCells [⟨0, NotebookCellKind.code, "ab\ncd".data⟩]).editFromNotebookCellTextDocumentContentChangeEvents
        0 [⟨⟨⟨0, 1⟩, ⟨0, 2⟩⟩, 1, 1, ['X']⟩]).apply
      (withoutMDCells [⟨0, NotebookCellKind.code, "ab\ncd".data⟩]).getAltText =
      ((withoutMDCells [⟨0, NotebookCellKind.code, "ab\ncd".data⟩]).withCellChangesAndEdit 0
        [⟨⟨⟨0, 1⟩, ⟨0, 2⟩⟩, 1, 1, ['X']⟩]).1.getAltText :=
  claim_c1_amended_edit_equivalence _ [] []
    ⟨⟨⟨0, NotebookCellKind.code, "ab\ncd".data⟩,
        getBlockComment, getLineCommentStart, "ab\ncd".data,
        ('#' :: "%% cell 0\n".data), []⟩, 0, 0⟩
    [⟨⟨⟨0, 1⟩, ⟨0, 2⟩⟩, 1, 1, ['X']⟩]
    (by decide) (by decide) (by decide) (by decide) (by decide) (by decide)
